import Mathlib

/-
  Verification development for the 3dconv mesh-conversion core.

  Shallow embedding of:
    - Bitset                  (src/src/bitset.cpp, include/3dconv/utils.hpp)
    - linalg vector helpers   (include/3dconv/linalg.hpp)
    - Face                    (src/src/model/face.cpp)
    - Model                   (src/src/model/model.cpp)

  Machine floats are embedded as exact rationals; every place where this
  matters (normalization, square roots) is commented at the definition.
  Thrown C++ exceptions are embedded as Except/Option results.
-/

namespace ThreeDConv

/- ---------------- Bitset (src/src/bitset.cpp) ----------------

   WordT = uintmax_t (64 bits on the reference LP64 target), WordS = 64.
   The source builds per-bit masks with the expression `1 << s` whose left
   operand is a 32-bit signed int, not a 64-bit word.  On the reference
   target (two's-complement int, x86-64 code generation) that expression,
   converted to the unsigned 64-bit word type, evaluates to:
     s % 32 ≤ 30 : 2 ^ (s % 32)      (the hardware reduces the shift count
                                      of a 32-bit shift mod 32; ISO C++
                                      leaves counts ≥ 32 undefined)
     s % 32 = 31 : 2^64 - 2^31       (1 << 31 is INT_MIN, which sign-extends
                                      when widened to the unsigned word)
   wordMask models the word value of `(WordT)(1 << (ind % WordS))`. -/

def wordS : Nat := 64

def wordMask (ind : Nat) : Nat :=
  let s := ind % wordS % 32
  if s = 31 then 2 ^ 64 - 2 ^ 31 else 2 ^ s

/-- Models `(WordT)((1 << (n % WordS)) - 1)` from the Bitset constructor,
with the same 32-bit-int shift semantics (at `s % 32 = 31` the `- 1`
wraps INT_MIN around to INT_MAX = 2^31 - 1). -/
def lastwMask (n : Nat) : Nat :=
  let s := n % wordS % 32
  if s = 31 then 2 ^ 31 - 1 else 2 ^ s - 1

/-- `full_mask_ = std::numeric_limits<WordT>::max()`. -/
def fullMask : Nat := 2 ^ 64 - 1

/-- `wordcnt_{n % WordS == 0 ? n / WordS : n / WordS + 1}`. -/
def wordcnt (n : Nat) : Nat := if n % wordS = 0 then n / wordS else n / wordS + 1

/-- State of a `Bitset`: the declared bit count and the word array.
Each word holds a 64-bit value (a Nat < 2^64 for states reachable
through the embedded operations). -/
structure Bitset where
  bitcnt : Nat
  words : List Nat
deriving Repr, DecidableEq

/-- `Bitset::Bitset(size_t n)`: all words zero-initialised. -/
def Bitset.make (n : Nat) : Bitset :=
  { bitcnt := n, words := List.replicate (wordcnt n) 0 }

/-- `Bitset::all()`: every word below the last must equal `full_mask_`,
the last word must equal `lastw_mask_`. -/
def Bitset.all (b : Bitset) : Bool :=
  let lastwIndex := b.words.length - 1
  ((List.range lastwIndex).all fun i => b.words.getD i 0 = fullMask) &&
    decide (b.words.getD lastwIndex 0 = lastwMask b.bitcnt)

/-- `Bitset::any()`. -/
def Bitset.any (b : Bitset) : Bool := b.words.any fun w => w ≠ 0

/-- `Bitset::none()`. -/
def Bitset.none (b : Bitset) : Bool := b.words.all fun w => w = 0

/-- `Bitset::operator[]`: `check_index` throws `std::out_of_range` for
`ind ≥ bitcnt_` (embedded as `none`); otherwise tests
`words_[ind / WordS] & BIT_MASK`. -/
def Bitset.getBit (b : Bitset) (ind : Nat) : Option Bool :=
  if ind < b.bitcnt then
    some (decide (b.words.getD (ind / wordS) 0 &&& wordMask ind ≠ 0))
  else
    Option.none

/-- `Bitset::flip`: XORs `BIT_MASK` into `words_[ind / WordS]`. -/
def Bitset.flip (b : Bitset) (ind : Nat) : Option Bitset :=
  if ind < b.bitcnt then
    let w := ind / wordS
    some { b with words := b.words.set w (b.words.getD w 0 ^^^ wordMask ind) }
  else
    Option.none

/-- `Bitset::set`: reads the bit through `operator[]` and flips it when it
differs from the requested value. -/
def Bitset.set (b : Bitset) (ind : Nat) (v : Bool) : Option Bitset :=
  match b.getBit ind with
  | Option.none => Option.none
  | some cur => if cur ≠ v then b.flip ind else some b

/-- `Bitset::reset()`: zeroes every word. -/
def Bitset.resetAll (b : Bitset) : Bitset :=
  { b with words := List.replicate b.words.length 0 }

/-- `Bitset::operator|` on equally sized bitsets (word-wise or). -/
def Bitset.orWith (b c : Bitset) : Bitset :=
  { b with words := List.zipWith (fun x y => x ||| y) b.words c.words }

/-- `Bitset::operator&` on equally sized bitsets (word-wise and). -/
def Bitset.andWith (b c : Bitset) : Bitset :=
  { b with words := List.zipWith (fun x y => x &&& y) b.words c.words }

/- ---------------- linalg (include/3dconv/linalg.hpp) ----------------

   Coordinates are C++ floats; they are embedded as exact fractions of
   integers.  The dyadic literals appearing in the claims are exactly
   representable in float, and every geometric decision the claims depend
   on is either exact float arithmetic on such values or a comparison
   that is invariant under the normalizations noted at each definition
   below.  The fraction type is kept unnormalized (so that every
   operation is primitive integer arithmetic); every value built by the
   embedding has a positive denominator — literals have positive
   denominators and the operations multiply them — and the
   cross-multiplied comparisons below are the exact value comparisons for
   positive denominators. -/

structure Q where
  num : Int
  den : Int
deriving Repr, DecidableEq

/-- The fraction `n / d`. -/
def q (n d : Int) : Q := ⟨n, d⟩

/-- The integer `n` as a fraction. -/
def qi (n : Int) : Q := ⟨n, 1⟩

def qadd (a b : Q) : Q := ⟨a.num * b.den + b.num * a.den, a.den * b.den⟩

def qsub (a b : Q) : Q := ⟨a.num * b.den - b.num * a.den, a.den * b.den⟩

def qmul (a b : Q) : Q := ⟨a.num * b.num, a.den * b.den⟩

/-- Division by a positive integer constant (used for the `/ 6` of the
volume formula). -/
def qdivInt (a : Q) (n : Int) : Q := ⟨a.num, a.den * n⟩

/-- `|a|` for a positive-denominator fraction. -/
def qabs (a : Q) : Q := ⟨Int.ofNat a.num.natAbs, a.den⟩

/-- Value comparison `a ≤ b` (cross-multiplied; exact for positive
denominators). -/
def qleB (a b : Q) : Bool := decide (a.num * b.den ≤ b.num * a.den)

/-- Value comparison `a < b` (cross-multiplied; exact for positive
denominators). -/
def qltB (a b : Q) : Bool := decide (a.num * b.den < b.num * a.den)

structure Vec3 where
  x : Q
  y : Q
  z : Q
deriving Repr, DecidableEq

structure Vec4 where
  x : Q
  y : Q
  z : Q
  w : Q
deriving Repr, DecidableEq

def zero3 : Vec3 := ⟨qi 0, qi 0, qi 0⟩

def zero4 : Vec4 := ⟨qi 0, qi 0, qi 0, qi 0⟩

def sub3 (a b : Vec3) : Vec3 := ⟨qsub a.x b.x, qsub a.y b.y, qsub a.z b.z⟩

def sub4 (a b : Vec4) : Vec4 :=
  ⟨qsub a.x b.x, qsub a.y b.y, qsub a.z b.z, qsub a.w b.w⟩

/-- `vec_slice<0, 3>` on a 4D vector. -/
def vec_slice03 (a : Vec4) : Vec3 := ⟨a.x, a.y, a.z⟩

/-- `vec_homogenize(v, ext_val)`. -/
def vec_homogenize (a : Vec3) (ext : Q) : Vec4 := ⟨a.x, a.y, a.z, ext⟩

/-- `cross_product` for Dim = 3 (without the optional normalization; every
embedded consumer of a normalized cross product only uses its direction,
see the comments at those consumers). -/
def cross_product3 (l r : Vec3) : Vec3 :=
  ⟨qsub (qmul l.y r.z) (qmul l.z r.y), qsub (qmul l.z r.x) (qmul l.x r.z),
    qsub (qmul l.x r.y) (qmul l.y r.x)⟩

/-- `cross_product` for Dim = 4: computed from the first three components,
with the fourth component set to 0. -/
def cross_product4 (l r : Vec4) : Vec4 :=
  ⟨qsub (qmul l.y r.z) (qmul l.z r.y), qsub (qmul l.z r.x) (qmul l.x r.z),
    qsub (qmul l.x r.y) (qmul l.y r.x), qi 0⟩

def dot_product3 (l r : Vec3) : Q :=
  qadd (qadd (qmul l.x r.x) (qmul l.y r.y)) (qmul l.z r.z)

def dot_product4 (l r : Vec4) : Q :=
  qadd (qadd (qadd (qmul l.x r.x) (qmul l.y r.y)) (qmul l.z r.z)) (qmul l.w r.w)

/-- Square of `euclidean_norm` on a 4D vector (all four components, as in
the source).  The source compares `euclidean_norm` values with `>`; since
the square root is strictly monotone on nonnegatives, comparing squared
norms is equivalent. -/
def normSq4 (a : Vec4) : Q :=
  qadd (qadd (qadd (qmul a.x a.x) (qmul a.y a.y)) (qmul a.z a.z)) (qmul a.w a.w)

/-- A 4x4 transform matrix, stored as rows. -/
structure Mat4 where
  r0 : Vec4
  r1 : Vec4
  r2 : Vec4
  r3 : Vec4
deriving Repr, DecidableEq

/-- `operator*(Mat, Vec)` for a 4x4 matrix and a 4D column vector. -/
def mat4_mul_vec (m : Mat4) (v : Vec4) : Vec4 :=
  ⟨dot_product4 m.r0 v, dot_product4 m.r1 v, dot_product4 m.r2 v, dot_product4 m.r3 v⟩

/- ---------------- Face and Model state ---------------- -/

/-- Embedded C++ exceptions: `ModelError` and `std::out_of_range` (the
latter thrown by the bounds-checked `F32_4D_VecT::operator[]`/`at`). -/
inductive CppErr
  | modelError
  | outOfRange
deriving Repr, DecidableEq

/-- `Face` data (face.cpp / model.hpp): the three index sequences, the
cached/explicit normal and its presence flag.  The weak back-reference to
the owning Model is not part of the record; the embedded Face operations
take the lock result (`Option Model`) explicitly. -/
structure Face where
  vertices : List Nat
  texture_vertices : List Nat
  vertex_normals : List Nat
  normal : Vec3
  is_normal_set : Bool
deriving Repr, DecidableEq

/-- Applies a fallible function to every list element, failing as soon as
one application fails (the embedding of a C++ loop whose body may
throw). -/
def traverseOpt (g : α → Option β) : List α → Option (List β)
  | [] => some []
  | a :: t =>
    match g a, traverseOpt g t with
    | some b, some bs => some (b :: bs)
    | _, _ => Option.none

/-- `Model` state (model.hpp:207-226): the three growable arrays, the face
container (kept in container iteration order), and the cached/dirty
booleans with their C++ default values at creation. -/
structure Model where
  vertices : List Vec4
  texture_vertices : List Vec3
  vertex_normals : List Vec3
  faces : List Face
  is_connected : Bool
  is_convex : Bool
  is_triangulated : Bool
  is_validated : Bool
  is_watertight : Bool
  recalc_connectivity : Bool
  recalc_convexity : Bool
  recalc_water_tightness : Bool
deriving Repr, DecidableEq

/-- `Model::create()`: an empty model with the member default values from
model.hpp (`is_*` and `recalc_*` all true). -/
def Model.empty : Model :=
  { vertices := [], texture_vertices := [], vertex_normals := [], faces := []
    is_connected := true, is_convex := true, is_triangulated := true
    is_validated := true, is_watertight := true
    recalc_connectivity := true, recalc_convexity := true
    recalc_water_tightness := true }

/-- Ring position `i` of ring `ring`, resolved through the model vertex
array `mv` (total helper; callers establish the bounds first, mirroring
the source's thrown `out_of_range` otherwise). -/
def ringVert (mv : List Vec4) (ring : List Nat) (i : Nat) : Vec4 :=
  mv.getD (ring.getD i 0) zero4

/-- The `i < vsz, i < j < vsz` scan of `Face::compute_normal` selecting the
ring-position pair with maximal pairwise distance, with strict
improvement in scan order.  The source compares `euclidean_norm` of the
4D differences; squared norms are compared here (equivalent, the square
root being strictly monotone). -/
def maxDistScan (mv : List Vec4) (ring : List Nat) : Nat × Nat :=
  let pairs := (List.range ring.length).flatMap fun i =>
    (List.range (ring.length - (i + 1))).map fun k => (i, i + 1 + k)
  let step := fun (st : Q × Nat × Nat) (p : Nat × Nat) =>
    let d := normSq4 (sub4 (ringVert mv ring p.1) (ringVert mv ring p.2))
    if qltB st.1 d then (d, p.1, p.2) else st
  (pairs.foldl step (qi 0, 0, 1)).2

/-- The second scan of `Face::compute_normal`: the ring position whose
vertex has maximal absolute projection onto `line_normal`, starting from
`distance = 0, i2 = 2`, strict improvement in scan order.  The source
normalizes `line_normal` (a positive scaling when the norm is nonzero;
when the norm is zero the float division yields NaN and every `>`
comparison is false, matching the all-zero projections here), so the
unnormalized projections give the same selected index. -/
def maxProjScan (mv : List Vec4) (ring : List Nat) (v0 : Vec4) (lineNormal : Vec4) : Nat :=
  let step := fun (st : Q × Nat) (i : Nat) =>
    let d := qabs (dot_product4 (sub4 (ringVert mv ring i) v0) lineNormal)
    if qltB st.1 d then (d, i) else st
  ((List.range ring.length).foldl step (qi 0, 2)).2

/-- The three conditional swaps sorting `(i0, i1, i2)` ascending. -/
def sort3 (i0 i1 i2 : Nat) : Nat × Nat × Nat :=
  let p := if i0 > i1 then (i1, i0) else (i0, i1)
  let q := if p.2 > i2 then (p.1, i2, p.2) else (p.1, p.2, i2)
  if q.1 > q.2.1 then (q.2.1, q.1, q.2.2) else q

/-- The arithmetic core of `Face::compute_normal` (face.cpp:138-203) after
the error checks: initial normal from the first three ring vertices; for
rings longer than 3, the robust reselection of three well-separated
positions.  Normalization steps are dropped: they scale by positive
factors (or produce NaN from a zero vector, in which case the scans keep
their initial indices exactly as the rational scans do), and every
embedded consumer uses only directions/signs or calls with
`Normalize::No`. -/
def computeNormalCore (mv : List Vec4) (ring : List Nat) : Vec3 :=
  let p := ringVert mv ring
  let n0 := cross_product4 (sub4 (p 1) (p 0)) (sub4 (p 2) (p 0))
  if 3 < ring.length then
    let ij := maxDistScan mv ring
    let v0 := p ij.1
    let v1 := p ij.2
    let lineNormal := cross_product4 n0 (sub4 v1 v0)
    let i2 := maxProjScan mv ring v0 lineNormal
    let s := sort3 ij.1 ij.2 i2
    vec_slice03 (cross_product4 (sub4 (p s.2.1) (p s.1)) (sub4 (p s.2.2) (p s.1)))
  else
    vec_slice03 n0

/-- `Face::compute_normal` with its error behaviour (face.cpp:138-152):
fewer than 3 ring vertices throws `ModelError`; an expired back-reference
(`get_model_shptr`, face.cpp:128-136) throws `ModelError`; a ring index
out of range of the model vertex array makes the bounds-checked vertex
access throw `std::out_of_range` (the source throws at the first
offending access; only the presence and type of the exception are
modelled, not which index is reported). -/
def Face.compute_normal (mdl : Option Model) (f : Face) : Except CppErr Vec3 :=
  if f.vertices.length < 3 then Except.error CppErr.modelError
  else
    match mdl with
    | Option.none => Except.error CppErr.modelError
    | some m =>
      if f.vertices.any (fun i => m.vertices.length ≤ i) then
        Except.error CppErr.outOfRange
      else
        Except.ok (computeNormalCore m.vertices f.vertices)

/-- `Face::normal()`: returns the explicitly set / cached normal when
`is_normal_set_`, otherwise computes it. -/
def Face.normalE (mdl : Option Model) (f : Face) : Except CppErr Vec3 :=
  if f.is_normal_set then Except.ok f.normal else f.compute_normal mdl

/- ---------------- Face ordering and the face container ---------------- -/

/-- Insertion of one element into a strictly sorted duplicate-free list;
building block for the `std::set<size_t>` values that `Face::operator<`
constructs from the index sequences. -/
def insSorted (x : Nat) : List Nat → List Nat
  | [] => [x]
  | a :: t => if x < a then x :: a :: t else if x = a then a :: t else a :: insSorted x t

/-- `std::set<size_t>(first, last)`: the strictly sorted duplicate-free
list of the elements. -/
def sortedDedup (l : List Nat) : List Nat := l.foldl (fun acc x => insSorted x acc) []

/-- `operator<` on `std::set<size_t>` = `std::lexicographical_compare`
over the sorted element sequences. -/
def listLexLt : List Nat → List Nat → Bool
  | _, [] => false
  | [], _ :: _ => true
  | a :: as, b :: bs => if a < b then true else if b < a then false else listLexLt as bs

/-- `|set(a) ∩ set(b)|`: the length of the `std::set_intersection` output
of the two sorted duplicate-free sequences. -/
def interCard (a b : List Nat) : Nat :=
  ((sortedDedup a).filter fun x => x ∈ sortedDedup b).length

/-- `Face::operator<` (face.cpp:112-124): lexicographic comparison of the
vertex-index sets, conjoined with `|intersection| < 3`. -/
def Face.lt (l r : Face) : Bool :=
  listLexLt (sortedDedup l.vertices) (sortedDedup r.vertices) &&
    interCard l.vertices r.vertices < 3

/-- Comparator-equivalence of two faces: neither is less than the other. -/
def faceEquiv (a b : Face) : Bool := !(Face.lt a b) && !(Face.lt b a)

/-- `std::set<Face>::insert`, embedded at the container-contract level:
the element is inserted iff no equivalent element is present.  (The Face
comparator is not a strict weak order — the spec flags this in §9 — so
`std::set`'s precondition is violated; the embedding uses the container's
documented contract semantics, which is also the dedup behaviour the spec
describes.) -/
def facesInsert (fs : List Face) (f : Face) : List Face :=
  if fs.any fun g => faceEquiv g f then fs else fs ++ [f]

/- ---------------- Model structural mutators ---------------- -/

/-- `Model::needs_recalc_properties()` (model.cpp:425-431). -/
def Model.needs_recalc_properties (m : Model) : Model :=
  { m with recalc_connectivity := true, recalc_convexity := true
           recalc_water_tightness := true }

/-- `Model::add_vertex` (model.cpp:77-82): appends and marks the three
derived properties for recomputation. -/
def Model.add_vertex (m : Model) (v : Vec4) : Model :=
  Model.needs_recalc_properties { m with vertices := m.vertices ++ [v] }

/-- `Model::add_texture_vertex` (model.cpp:84-88). -/
def Model.add_texture_vertex (m : Model) (tv : Vec3) : Model :=
  { m with texture_vertices := m.texture_vertices ++ [tv] }

/-- `Model::add_vertex_normal` (model.cpp:90-94). -/
def Model.add_vertex_normal (m : Model) (vn : Vec3) : Model :=
  { m with vertex_normals := m.vertex_normals ++ [vn] }

/-- `Model::add_face` (model.cpp:96-112) after its associated-model guard
(the guard throws `ModelError` for a face whose back-reference is not
this model; the embedding covers faces associated with `m`): container
insert, then the flag updates, which happen whether or not the insert was
rejected. -/
def Model.add_face (m : Model) (f : Face) : Model :=
  let m1 := { m with faces := facesInsert m.faces f }
  let m2 := if 3 < f.vertices.length then { m1 with is_triangulated := false } else m1
  Model.needs_recalc_properties { m2 with is_validated := false }

/-- `Face::validate` (face.cpp:206-255): ring length, parallel-sequence
lengths, then index-range checks against the owning model's arrays (the
back-reference lock can also fail).  All failures are `ModelError`. -/
def Face.validate (mdl : Option Model) (f : Face) : Except CppErr Unit :=
  if f.vertices.length < 3 then Except.error CppErr.modelError
  else if f.texture_vertices.length ≠ 0 ∧
      f.texture_vertices.length ≠ f.vertices.length then Except.error CppErr.modelError
  else if f.vertex_normals.length ≠ 0 ∧
      f.vertex_normals.length ≠ f.vertices.length then Except.error CppErr.modelError
  else
    match mdl with
    | Option.none => Except.error CppErr.modelError
    | some m =>
      if f.vertices.any (fun v => m.vertices.length ≤ v) then
        Except.error CppErr.modelError
      else if f.texture_vertices.any (fun tv => m.texture_vertices.length ≤ tv) then
        Except.error CppErr.modelError
      else if f.vertex_normals.any (fun vn => m.vertex_normals.length ≤ vn) then
        Except.error CppErr.modelError
      else Except.ok ()

/-- Whether `Face::validate` succeeds for a face of model `m`. -/
def Face.validateB (m : Model) (f : Face) : Bool :=
  match Face.validate (some m) f with
  | Except.ok _ => true
  | Except.error _ => false

/-- `Model::validate` (model.cpp:400-421): immediate return when already
validated; otherwise every face is validated (failures are re-wrapped
into a `ModelError`) and the flag is set on full success.  The returned
model is the post-call state of the receiver (`is_validated_` is a
mutable field written by this const method). -/
def Model.validate (m : Model) : Except CppErr Model :=
  if m.is_validated then Except.ok m
  else if m.faces.all (fun f => Face.validateB m f) then
    Except.ok { m with is_validated := true }
  else Except.error CppErr.modelError

/-- `Model::transform` (model.cpp:224-236): the matrix is applied to every
vertex, and to every vertex normal homogenized with extension component 0;
nothing else is touched. -/
def Model.transform (m : Model) (tmat : Mat4) : Model :=
  { m with
    vertices := m.vertices.map fun v => mat4_mul_vec tmat v
    vertex_normals := m.vertex_normals.map fun vn =>
      vec_slice03 (mat4_mul_vec tmat (vec_homogenize vn (qi 0))) }

/- ---------------- Connectivity (model.cpp:433-479, 354-365) ---------------- -/

/-- The per-face bitset of `check_connectivity`: a fresh `nverts`-bit set
with `set(v)` for every ring index `v` (the bounds check of `set` throws
for `v ≥ nverts`, embedded as `none`). -/
def faceBitset (nverts : Nat) (f : Face) : Option Bitset :=
  f.vertices.foldlM (fun bs v => bs.set v true) (Bitset.make nverts)

/-- One pass of the merge loop: every remaining bitset sharing a set bit
with the running union (computed with the embedded word-wise `&`/`any`)
is or-merged into the union and removed; the union grows within the pass,
as in the source. -/
def connPass (bsu : Bitset) : List Bitset → Bitset × List Bitset
  | [] => (bsu, [])
  | c :: rest =>
    if (Bitset.andWith c bsu).any then connPass (Bitset.orWith bsu c) rest
    else
      let r := connPass bsu rest
      (r.1, c :: r.2)

/-- `while (!connections.empty() && nconn--) { ... }` followed by
`return connections.empty() && bs_union.all()`. -/
def connLoop : Nat → Bitset → List Bitset → Bool
  | _, bsu, [] => bsu.all
  | 0, _, _ :: _ => false
  | n + 1, bsu, c :: cs =>
    let r := connPass bsu (c :: cs)
    connLoop n r.1 r.2

/-- `Model::check_connectivity` (model.cpp:433-479).  With no faces the
result is `nverts ? false : true`.  Otherwise the face bitsets are pushed
with `emplace_front` (reversing the face order), the union starts from the
front bitset, and at most `connections.size()` merge passes run. -/
def check_connectivity (faces : List Face) (nverts : Nat) : Option Bool :=
  if faces.isEmpty then some (if nverts ≠ 0 then false else true)
  else
    match traverseOpt (faceBitset nverts) faces with
    | Option.none => Option.none
    | some bss =>
      match bss.reverse with
      | [] => Option.none
      | bsu :: rest => some (connLoop rest.length bsu rest)

/-- `Model::is_connected` (model.cpp:354-365): validates first (a
validation failure propagates), recomputes through `check_connectivity`
when the dirty flag is set, and caches the result.  Returns the value and
the post-call state of the receiver (the cache fields are mutable). -/
def Model.is_connected_call (m : Model) : Option (Bool × Model) :=
  match Model.validate m with
  | Except.error _ => Option.none
  | Except.ok m1 =>
    if m1.recalc_connectivity then
      match check_connectivity m1.faces m1.vertices.length with
      | Option.none => Option.none
      | some b => some (b, { m1 with is_connected := b, recalc_connectivity := false })
    else some (m1.is_connected, m1)


/- ---------------- convexify_faces (model.cpp:114-222) ---------------- -/

/-- `Face::Face(const Face &, const IndexVecT &)` (face.cpp:31-47): the
sub-face of `orig` at the given ring positions; texture/normal index
sequences are sliced at the same positions when nonempty; the normal
cache starts unset (its value field is never read while unset, so the
default is immaterial). -/
def subFace (orig : Face) (indices : List Nat) : Face :=
  { vertices := indices.map fun i => orig.vertices.getD i 0
    texture_vertices :=
      if orig.texture_vertices.isEmpty then []
      else indices.map fun i => orig.texture_vertices.getD i 0
    vertex_normals :=
      if orig.vertex_normals.isEmpty then []
      else indices.map fun i => orig.vertex_normals.getD i 0
    normal := zero3
    is_normal_set := false }

/-- `visited_edges.insert(e)` on the `std::set` of (ordered) index
pairs. -/
def insertVisited (vis : List (Nat × Nat)) (e : Nat × Nat) : List (Nat × Nat) :=
  if e ∈ vis then vis else vis ++ [e]

/-- `outer_indices.back().push_back(x)` (no-op on an empty run list; the
source only calls it when a run exists). -/
def appendLast : List (List Nat) → Nat → List (List Nat)
  | [], _ => []
  | [l], x => [l ++ [x]]
  | l :: ls, x => l :: appendLast ls x

/-- The per-vertex inside test of the edge scan (model.cpp:171-177):
`dot(cross(edge_vec, v[(i+j) % vsz] − edge_src), normal) ≥ 0` on the 3D
slices.  `nrm` is the face normal as returned by the embedded `normal()`;
the source's normalized normal is a positive multiple of it, leaving this
sign test unchanged. -/
def insideTest (mv : List Vec4) (ring : List Nat) (nrm : Vec3) (i j : Nat) : Bool :=
  let vsz := ring.length
  let e0 := vec_slice03 (mv.getD (ring.getD i 0) zero4)
  let e1 := vec_slice03 (mv.getD (ring.getD ((i + 1) % vsz) 0) zero4)
  let p := vec_slice03 (mv.getD (ring.getD ((i + j) % vsz) 0) zero4)
  qleB (qi 0) (dot_product3 (cross_product3 (sub3 e1 e0) (sub3 p e0)) nrm)

/-- State of the inner/outer run builder: accumulated inner positions,
outer runs, and the previous vertex's inside flag. -/
structure SplitState where
  inner : List Nat
  outer : List (List Nat)
  prevInside : Bool
deriving Repr, DecidableEq

/-- One step of the classification loop (model.cpp:171-194) at scan
offset `j`: an inside vertex joins the inner run (and closes a pending
outside run); an outside vertex opens a run padded with the preceding
position, or extends the pending one. -/
def splitStep (mv : List Vec4) (ring : List Nat) (nrm : Vec3) (i : Nat)
    (st : SplitState) (j : Nat) : SplitState :=
  let vsz := ring.length
  let ind := (i + j) % vsz
  if insideTest mv ring nrm i j then
    { inner := st.inner ++ [ind]
      outer := if st.prevInside then st.outer else appendLast st.outer ind
      prevInside := true }
  else
    { inner := st.inner
      outer :=
        if st.prevInside then st.outer ++ [[(vsz + ind - 1) % vsz, ind]]
        else appendLast st.outer ind
      prevInside := false }

/-- The full classification for the edge at ring position `i`
(model.cpp:161-197): inner run seeded with `i, (i+1) % vsz`, scan offsets
`j = 2 .. vsz-1`, and the trailing outside run closed with the edge start
position. -/
def edgeSplit (mv : List Vec4) (ring : List Nat) (nrm : Vec3) (i : Nat) :
    List Nat × List (List Nat) :=
  let vsz := ring.length
  let st := ((List.range (vsz - 2)).map fun k => k + 2).foldl
    (splitStep mv ring nrm i) ⟨[i, (i + 1) % vsz], [], true⟩
  (st.inner, if st.prevInside then st.outer else appendLast st.outer i)

/-- The edge scan of one queue polygon (model.cpp:153-205): edges visited
in ring order, skipping pairs already in `visited_edges`; each scanned
edge is marked visited; the first edge with a nonempty outside
classification stops the scan and reports the split. -/
def scanEdges (mv : List Vec4) (ring : List Nat) (nrm : Vec3) :
    List Nat → List (Nat × Nat) →
      List (Nat × Nat) × Option (List Nat × List (List Nat))
  | [], vis => (vis, Option.none)
  | i :: rest, vis =>
    let e := (ring.getD i 0, ring.getD ((i + 1) % ring.length) 0)
    if e ∈ vis then scanEdges mv ring nrm rest vis
    else
      let r := edgeSplit mv ring nrm i
      let vis2 := insertVisited vis e
      if r.2.isEmpty then scanEdges mv ring nrm rest vis2
      else (vis2, some r)

/-- The work-queue loop for one original face (model.cpp:143-219).
Triangles record their three edges as visited and are accepted; other
polygons are split at the first concave edge, pushing the inner and the
outer sub-polygons to the back of the queue; polygons whose scan finds no
concave edge are accepted.  Accepted polygons go through the `new_faces`
set insert.  `fuel` bounds the number of queue pops (the source loop has
no such bound); `none` covers fuel exhaustion and a thrown
normal-computation error. -/
def processQueue (m : Model) : Nat → List (Nat × Nat) → List Face → List Face →
    Option (List Face)
  | _, _, [], acc => some acc
  | 0, _, _ :: _, _ => Option.none
  | fuel + 1, vis, tmpf :: rest, acc =>
    let ring := tmpf.vertices
    if ring.length = 3 then
      let vis2 := insertVisited (insertVisited (insertVisited vis
        (ring.getD 0 0, ring.getD 1 0)) (ring.getD 1 0, ring.getD 2 0))
        (ring.getD 2 0, ring.getD 0 0)
      processQueue m fuel vis2 rest (facesInsert acc tmpf)
    else
      match Face.normalE (some m) tmpf with
      | Except.error _ => Option.none
      | Except.ok nrm =>
        let r := scanEdges m.vertices ring nrm (List.range ring.length) vis
        match r.2 with
        | Option.none => processQueue m fuel r.1 rest (facesInsert acc tmpf)
        | some (inner, outers) =>
          processQueue m fuel r.1
            (rest ++ subFace tmpf inner :: outers.map (subFace tmpf)) acc

/-- The face-container pass of `convexify_faces` (model.cpp:132-220):
triangles stay in place; every other face is erased and queue-processed
with a fresh `visited_edges`, accumulating accepted polygons in the
shared `new_faces`. -/
def convexifyGo (m : Model) (fuel : Nat) :
    List Face → List Face → List Face → Option (List Face × List Face)
  | [], kept, newFaces => some (kept, newFaces)
  | f :: fs, kept, newFaces =>
    if f.vertices.length = 3 then convexifyGo m fuel fs (kept ++ [f]) newFaces
    else
      match processQueue m fuel [] [f] newFaces with
      | Option.none => Option.none
      | some nf2 => convexifyGo m fuel fs kept nf2

/-- `std::set<Face>::merge`: every source element with no equivalent in
the (growing) target is moved into it.  The embedding iterates the
accumulated `new_faces` in insertion order; in the claims below the
merged elements are pairwise non-equivalent, where every iteration order
gives the same container contents. -/
def facesMerge (target : List Face) (source : List Face) : List Face :=
  source.foldl facesInsert target

/-- `Model::convexify_faces` (model.cpp:114-222): no-op when already
triangulated; validates first; then the container pass and the final
merge. -/
def Model.convexify_faces (fuel : Nat) (m : Model) : Option Model :=
  if m.is_triangulated then some m
  else
    match Model.validate m with
    | Except.error _ => Option.none
    | Except.ok m1 =>
      match convexifyGo m1 fuel m1.faces [] [] with
      | Option.none => Option.none
      | some r => some { m1 with faces := facesMerge r.1 r.2 }

/-- The face list after `convexify_faces` on already-convex faces: the
triangles (kept in place) followed by the re-merged larger faces. -/
def trisFirst (fs : List Face) : List Face :=
  fs.filter (fun f => decide (f.vertices.length = 3)) ++
    fs.filter (fun f => ! decide (f.vertices.length = 3))

/-- The triangle faces of a container (left alone by `convexify_faces`
and `triangulate`). -/
def trisOf (fs : List Face) : List Face :=
  fs.filter (fun f => decide (f.vertices.length = 3))

/-- The larger faces of a container (the ones `triangulate` fans). -/
def bigsOf (fs : List Face) : List Face :=
  fs.filter (fun f => ! decide (f.vertices.length = 3))

/- ---------------- triangulate (model.cpp:238-291) ---------------- -/

/-- The alternating double-ended triple emission (model.cpp:265-282).
After `k` steps `trind[0] = (-k, 1+k, 2+k)` and `trind[1] = (-1-k, -k,
2+k)`; the loop computes `(fvcnt_vec + trind[i]) % fvcnt`, here written
with the nonnegative numerators `n-k`, `1+k`, `2+k`, `n-1-k` (nonnegative
throughout the reachable range `k < n`).  A triple whose first and third
components coincide aborts the whole loop before emitting.  `fuel` bounds
the iteration count; `earTriples` passes `fuel = n`, which the lemmas
below prove sufficient. -/
def earFuel : Nat → Nat → Nat → List (Nat × Nat × Nat)
  | 0, _, _ => []
  | fuel + 1, n, k =>
    if (n - k) % n = (2 + k) % n then []
    else
      ((n - k) % n, (1 + k) % n, (2 + k) % n) ::
        (if (n - 1 - k) % n = (2 + k) % n then []
         else ((n - 1 - k) % n, (n - k) % n, (2 + k) % n) :: earFuel fuel n (k + 1))

/-- The emitted ring-position triples for a ring of length `n`. -/
def earTriples (n : Nat) : List (Nat × Nat × Nat) := earFuel n n 0

/-- The triple emitted from `trind[0]` after `k` steps (analysis form,
used by the lemmas about `earFuel`). -/
def T0form (n k : Nat) : Nat × Nat × Nat :=
  ((n - k) % n, (1 + k) % n, (2 + k) % n)

/-- The triple emitted from `trind[1]` after `k` steps (analysis form). -/
def T1form (n k : Nat) : Nat × Nat × Nat :=
  ((n - 1 - k) % n, (n - k) % n, (2 + k) % n)

/-- The set of ring positions of an emitted triple (analysis form). -/
def triplePos (t : Nat × Nat × Nat) : Finset Nat := {t.1, t.2.1, t.2.2}

/-- The triangle faces emitted for face `f`
(`new_faces.emplace(*f, IndexVecT{ivec[0], ivec[1], ivec[2]})`). -/
def fanTriangles (f : Face) : List Face :=
  (earTriples f.vertices.length).map fun t => subFace f [t.1, t.2.1, t.2.2]

/-- The face container after the fan pass on already-convex faces: the
triangles stay, every larger face is replaced by its fan triangles. -/
def fannedFaces (fs : List Face) : List Face :=
  trisOf fs ++ ((bigsOf fs).map fanTriangles).flatten

/-- The face-container pass of `triangulate` (model.cpp:255-288): faces
with more than 3 vertices are replaced by their fan triangles (inserted
into the `new_faces` set), the rest stay in place. -/
def triangulateGo : List Face → List Face → List Face → List Face × List Face
  | [], kept, newFaces => (kept, newFaces)
  | f :: fs, kept, newFaces =>
    if 3 < f.vertices.length then
      triangulateGo fs kept ((fanTriangles f).foldl facesInsert newFaces)
    else triangulateGo fs (kept ++ [f]) newFaces

/-- `Model::triangulate` (model.cpp:238-291): no-op when triangulated;
validate, convexify, then the fan pass, the merge, and the flag set.  The
`numeric_limits<long>::max()` ring-size guard (model.cpp:257-262) is
checked up front: the source throws at the first oversized face during
the pass, and only whether it throws is modelled. -/
def Model.triangulate (fuel : Nat) (m : Model) : Option Model :=
  if m.is_triangulated then some m
  else
    match Model.validate m with
    | Except.error _ => Option.none
    | Except.ok m1 =>
      match Model.convexify_faces fuel m1 with
      | Option.none => Option.none
      | some m2 =>
        if m2.faces.any (fun f => 2 ^ 63 - 1 ≤ f.vertices.length) then Option.none
        else
          let r := triangulateGo m2.faces [] []
          some { m2 with faces := facesMerge r.1 r.2, is_triangulated := true }

/- ---------------- surface_area / volume (model.cpp:295-346) ---------------- -/

/-- `determinant` for 3x3 matrices (linalg.hpp:429-436), entries given
row-major. -/
def determinant3 (m00 m01 m02 m10 m11 m12 m20 m21 m22 : Q) : Q :=
  qadd (qsub (qmul m00 (qsub (qmul m11 m22) (qmul m12 m21)))
      (qmul m01 (qsub (qmul m10 m22) (qmul m20 m12))))
    (qmul m02 (qsub (qmul m10 m21) (qmul m20 m11)))

/-- `Model::surface_area` (model.cpp:295-316): validate; when the mesh is
not triangulated, work on a triangulated private copy (`Model::create
(other)`, model.cpp:39-47, duplicates the arrays and faces — a
state-identical model here).  The source sums
`.5f * euclidean_norm(f.compute_normal(Normalize::No))` over the working
model's faces; the norm involves a square root, so the embedding returns
the post-call state of the receiver together with the list of
unnormalized face normals whose half-norms are summed. -/
def Model.surface_area_call (fuel : Nat) (m : Model) : Option (Model × List Vec3) :=
  match Model.validate m with
  | Except.error _ => Option.none
  | Except.ok m1 =>
    match (if m1.is_triangulated then some m1 else Model.triangulate fuel m1) with
    | Option.none => Option.none
    | some mq =>
      match traverseOpt (fun f => (Face.compute_normal (some mq) f).toOption) mq.faces with
      | Option.none => Option.none
      | some ns => some (m1, ns)

/-- One signed-tetrahedron term of `Model::volume` (model.cpp:337-344):
`det([v0 | v1 | v2]) / 6` over the face's first three ring vertices;
`none` when one of the three accessed indices escapes the bounds-checked
vertex array. -/
def volumeTerm (mv : List Vec4) (f : Face) : Option Q :=
  let i0 := f.vertices.getD 0 0
  let i1 := f.vertices.getD 1 0
  let i2 := f.vertices.getD 2 0
  if mv.length ≤ i0 ∨ mv.length ≤ i1 ∨ mv.length ≤ i2 then Option.none
  else
    let v0 := mv.getD i0 zero4
    let v1 := mv.getD i1 zero4
    let v2 := mv.getD i2 zero4
    some (qdivInt (determinant3 v0.x v1.x v2.x v0.y v1.y v2.y v0.z v1.z v2.z) 6)

/-- `Model::volume` (model.cpp:319-346): validate; triangulated private
copy when needed; sum of the signed-tetrahedron terms.  Returns the
post-call state of the receiver and the sum. -/
def Model.volume_call (fuel : Nat) (m : Model) : Option (Model × Q) :=
  match Model.validate m with
  | Except.error _ => Option.none
  | Except.ok m1 =>
    match (if m1.is_triangulated then some m1 else Model.triangulate fuel m1) with
    | Option.none => Option.none
    | some mq =>
      match traverseOpt (volumeTerm mq.vertices) mq.faces with
      | Option.none => Option.none
      | some qs => some (m1, qs.foldl qadd (qi 0))

/- ---------------- Concrete models used by the claims ---------------- -/

/-- The 6-vertex single-concavity face of claim C6. -/
def hexFace : Face := Face.mk [0, 1, 2, 3, 4, 5] [] [] zero3 false

/-- The claim-C6 model, built through the structural mutators:
vertices (1,.5,0), (0,.5,0), (.25,.5,1), (-1,.5,.5), (-1,.5,-1),
(-.25,.5,-1) and the single hexagonal face. -/
def hexModel : Model :=
  Model.add_face
    (Model.add_vertex (Model.add_vertex (Model.add_vertex (Model.add_vertex
      (Model.add_vertex (Model.add_vertex Model.empty ⟨qi 1, q 1 2, qi 0, qi 1⟩)
        ⟨qi 0, q 1 2, qi 0, qi 1⟩) ⟨q 1 4, q 1 2, qi 1, qi 1⟩)
        ⟨qi (-1), q 1 2, q 1 2, qi 1⟩) ⟨qi (-1), q 1 2, qi (-1), qi 1⟩)
      ⟨q (-1) 4, q 1 2, qi (-1), qi 1⟩)
    hexFace

/-- A validated single-triangle model (witness input for C5). -/
def triModel : Model :=
  { Model.empty with
    vertices := [⟨qi 0, qi 0, qi 0, qi 1⟩, ⟨qi 1, qi 0, qi 0, qi 1⟩, ⟨qi 0, qi 1, qi 0, qi 1⟩]
    faces := [Face.mk [0, 1, 2] [] [] zero3 false]
    is_validated := true }

/-- A validated unit-square quad model (witness input for C2). -/
def sqModel : Model :=
  { Model.empty with
    vertices := [⟨qi 0, qi 0, qi 0, qi 1⟩, ⟨qi 1, qi 0, qi 0, qi 1⟩, ⟨qi 1, qi 1, qi 0, qi 1⟩, ⟨qi 0, qi 1, qi 0, qi 1⟩]
    faces := [Face.mk [0, 1, 2, 3] [] [] zero3 false]
    is_triangulated := false
    is_validated := true }

/-- Convexity of a face exactly as the convexify edge scan decides it:
its `normal()` computes, and for every edge `i` and every scan offset
`j ∈ [2, vsz)` the inside test holds (so no edge finds outside
vertices). -/
def ConvexFace (m : Model) (f : Face) : Prop :=
  ∃ nrm, Face.normalE (some m) f = Except.ok nrm ∧
    ∀ i ∈ List.range f.vertices.length, ∀ j ∈ List.range f.vertices.length,
      2 ≤ j → insideTest m.vertices f.vertices nrm i j = true

/- ---------------- Comparator lemmas ---------------- -/

theorem listLexLt_irrefl (l : List Nat) : listLexLt l l = false := by
  induction l with
  | nil => rfl
  | cons a t ih => simp [listLexLt, ih]

theorem eq_of_listLexLt_ff (a : List Nat) :
    ∀ b : List Nat, listLexLt a b = false → listLexLt b a = false → a = b := by
  induction a with
  | nil =>
    intro b h1 _
    cases b with
    | nil => rfl
    | cons x t => simp [listLexLt] at h1
  | cons x t ih =>
    intro b h1 h2
    cases b with
    | nil => simp [listLexLt] at h2
    | cons y s =>
      simp only [listLexLt] at h1 h2
      by_cases hxy : x < y
      · simp [hxy] at h1
      · by_cases hyx : y < x
        · simp [hxy, hyx] at h2
        · have hxy2 : x = y := Nat.le_antisymm (Nat.not_lt.mp hyx) (Nat.not_lt.mp hxy)
          subst hxy2
          simp only [Nat.lt_irrefl, if_false] at h1 h2
          exact congrArg (x :: ·) (ih s h1 h2)

theorem mem_insSorted (x y : Nat) (l : List Nat) :
    y ∈ insSorted x l ↔ y = x ∨ y ∈ l := by
  induction l with
  | nil => simp [insSorted]
  | cons a t ih =>
    by_cases h1 : x < a
    · simp [insSorted, h1]
    · by_cases h2 : x = a
      · subst h2
        simp only [insSorted, Nat.lt_irrefl, if_false, if_pos rfl]
        constructor
        · intro h
          exact Or.inr h
        · rintro (h | h)
          · exact h ▸ List.mem_cons_self x t
          · exact h
      · simp only [insSorted, h1, h2, if_false, List.mem_cons, ih]
        tauto

theorem nodup_insSorted (x : Nat) (l : List Nat)
    (hs : List.Sorted (· < ·) l) : List.Sorted (· < ·) (insSorted x l) := by
  induction l with
  | nil => simp [insSorted]
  | cons a t ih =>
    have hst : List.Sorted (· < ·) t := hs.of_cons
    by_cases h1 : x < a
    · rw [insSorted, if_pos h1]
      refine List.sorted_cons.mpr ⟨?_, hs⟩
      intro b hb
      rcases List.mem_cons.mp hb with h | h
      · exact h ▸ h1
      · exact Nat.lt_trans h1 (List.rel_of_sorted_cons hs b h)
    · by_cases h2 : x = a
      · subst h2
        simpa [insSorted, h1] using hs
      · have hax : a < x := Nat.lt_of_le_of_ne (Nat.not_lt.mp h1) fun h => h2 h.symm
        simp only [insSorted, h1, h2, if_false]
        refine List.sorted_cons.mpr ⟨?_, ih hst⟩
        intro b hb
        rcases (mem_insSorted x b t).mp hb with h | h
        · exact h ▸ hax
        · exact List.rel_of_sorted_cons hs b h

theorem sortedDedup_sorted (l : List Nat) : List.Sorted (· < ·) (sortedDedup l) := by
  suffices h : ∀ acc : List Nat, List.Sorted (· < ·) acc →
      List.Sorted (· < ·) (l.foldl (fun acc x => insSorted x acc) acc) by
    exact h [] List.sorted_nil
  induction l with
  | nil => intro acc hacc; exact hacc
  | cons a t ih =>
    intro acc hacc
    exact ih (insSorted a acc) (nodup_insSorted a acc hacc)

theorem sortedDedup_nodup (l : List Nat) : (sortedDedup l).Nodup :=
  (sortedDedup_sorted l).nodup

theorem mem_sortedDedup (l : List Nat) (y : Nat) : y ∈ sortedDedup l ↔ y ∈ l := by
  suffices h : ∀ acc : List Nat,
      (y ∈ l.foldl (fun acc x => insSorted x acc) acc ↔ y ∈ acc ∨ y ∈ l) by
    simpa using h []
  induction l with
  | nil => intro acc; simp
  | cons a t ih =>
    intro acc
    rw [List.foldl_cons, ih (insSorted a acc)]
    rw [mem_insSorted]
    simp [List.mem_cons]
    tauto

/-- The intersection cardinality is symmetric: both sides count the
common elements of the two duplicate-free sorted sequences. -/
theorem interCard_symm (a b : List Nat) : interCard a b = interCard b a := by
  unfold interCard
  have key : ∀ u v : List Nat, u.Nodup → v.Nodup →
      (u.filter fun x => x ∈ v).length = (u.toFinset ∩ v.toFinset).card := by
    intro u v hu _
    rw [← List.toFinset_card_of_nodup (hu.filter _)]
    congr 1
    ext z
    simp [List.mem_toFinset, List.mem_filter]
  rw [key _ _ (sortedDedup_nodup a) (sortedDedup_nodup b),
    key _ _ (sortedDedup_nodup b) (sortedDedup_nodup a), Finset.inter_comm]

/-- Comparator equivalence characterised: two faces are equivalent for the
container exactly when their vertex-index sets share at least 3 elements
or are equal. -/
theorem faceEquiv_iff (g f : Face) :
    faceEquiv g f = true ↔
      3 ≤ interCard g.vertices f.vertices ∨
        sortedDedup g.vertices = sortedDedup f.vertices := by
  unfold faceEquiv Face.lt
  rw [interCard_symm f.vertices g.vertices]
  by_cases hc : interCard g.vertices f.vertices < 3
  · simp only [hc, decide_True, Bool.and_true, Bool.and_eq_true, Bool.not_eq_true']
    constructor
    · rintro ⟨h1, h2⟩
      exact Or.inr (eq_of_listLexLt_ff _ _ h1 h2)
    · rintro (h | h)
      · exact absurd h (Nat.not_le.mpr hc)
      · rw [h]
        exact ⟨listLexLt_irrefl _, listLexLt_irrefl _⟩
  · simp only [hc, decide_False, Bool.and_false, Bool.not_false, Bool.and_self, true_iff]
    exact Or.inl (Nat.not_lt.mp hc)

/-- Claim C1: inserting a face whose vertex-index set shares ≥ 3 elements
with the set of some face already in the container leaves the container
unchanged; inserting a face whose set shares ≤ 2 elements with every
present face's set and equals none of them appends exactly one face. -/
theorem C1_add_face_dedup (m : Model) (f : Face) :
    ((∃ g ∈ m.faces, 3 ≤ interCard g.vertices f.vertices) →
      (Model.add_face m f).faces = m.faces) ∧
    ((∀ g ∈ m.faces, interCard g.vertices f.vertices ≤ 2 ∧
        sortedDedup g.vertices ≠ sortedDedup f.vertices) →
      (Model.add_face m f).faces.length = m.faces.length + 1) := by
  have hfaces : ∀ m1 : Model, (Model.add_face m1 f).faces = facesInsert m1.faces f := by
    intro m1
    unfold Model.add_face Model.needs_recalc_properties
    by_cases h : 3 < f.vertices.length <;> simp [h]
  constructor
  · rintro ⟨g, hg, hshare⟩
    rw [hfaces]
    unfold facesInsert
    have hany : m.faces.any (fun g0 => faceEquiv g0 f) = true :=
      List.any_eq_true.mpr ⟨g, hg, (faceEquiv_iff g f).mpr (Or.inl hshare)⟩
    simp [hany]
  · intro hall
    rw [hfaces]
    unfold facesInsert
    have hany : m.faces.any (fun g0 => faceEquiv g0 f) = false := by
      rw [List.any_eq_false]
      intro g hg habs
      rcases (faceEquiv_iff g f).mp habs with h | h
      · have := (hall g hg).1
        omega
      · exact (hall g hg).2 h
    simp [hany]

/-- Witness for C1_add_face_dedup: on a model holding the single face
`[0,1,2,3]`, inserting `[1,2,3,9]` (3 shared indices) leaves the container
unchanged, while inserting `[2,3,8,9]` (2 shared indices) grows it by one. -/
theorem C1_add_face_dedup_witness :
    ((Model.add_face
        { Model.empty with faces := [Face.mk [0, 1, 2, 3] [] [] zero3 false] }
        (Face.mk [1, 2, 3, 9] [] [] zero3 false)).faces =
      ({ Model.empty with faces := [Face.mk [0, 1, 2, 3] [] [] zero3 false] } : Model).faces) ∧
    ((Model.add_face
        { Model.empty with faces := [Face.mk [0, 1, 2, 3] [] [] zero3 false] }
        (Face.mk [2, 3, 8, 9] [] [] zero3 false)).faces.length =
      ({ Model.empty with faces := [Face.mk [0, 1, 2, 3] [] [] zero3 false] } : Model).faces.length + 1) :=
  ⟨(C1_add_face_dedup _ (Face.mk [1, 2, 3, 9] [] [] zero3 false)).1 (by decide),
   (C1_add_face_dedup _ (Face.mk [2, 3, 8, 9] [] [] zero3 false)).2 (by decide)⟩

/-- Claim C3: `transform` modifies only the vertex array and the
vertex-normal array; the face container, every cached/derived flag, the
three needs-recomputation flags, and the texture-vertex array are all
unchanged. -/
theorem C3_transform_frame (m : Model) (tmat : Mat4) :
    (Model.transform m tmat).faces = m.faces ∧
    (Model.transform m tmat).texture_vertices = m.texture_vertices ∧
    (Model.transform m tmat).is_triangulated = m.is_triangulated ∧
    (Model.transform m tmat).is_validated = m.is_validated ∧
    (Model.transform m tmat).is_connected = m.is_connected ∧
    (Model.transform m tmat).is_convex = m.is_convex ∧
    (Model.transform m tmat).is_watertight = m.is_watertight ∧
    (Model.transform m tmat).recalc_connectivity = m.recalc_connectivity ∧
    (Model.transform m tmat).recalc_convexity = m.recalc_convexity ∧
    (Model.transform m tmat).recalc_water_tightness = m.recalc_water_tightness :=
  ⟨rfl, rfl, rfl, rfl, rfl, rfl, rfl, rfl, rfl, rfl⟩

/-- Claim C4 — amended.  `add_face` sets the three needs-recomputation
flags and clears `is_validated`; `add_vertex` sets the three
needs-recomputation flags but leaves `is_validated` unchanged, so after
`add_vertex` on a validated model a subsequent `validate()` still returns
immediately. -/
theorem C4_mutator_invalidation (m : Model) (v : Vec4) (f : Face) :
    ((Model.add_vertex m v).recalc_connectivity = true ∧
     (Model.add_vertex m v).recalc_convexity = true ∧
     (Model.add_vertex m v).recalc_water_tightness = true ∧
     (Model.add_vertex m v).is_validated = m.is_validated) ∧
    ((Model.add_face m f).recalc_connectivity = true ∧
     (Model.add_face m f).recalc_convexity = true ∧
     (Model.add_face m f).recalc_water_tightness = true ∧
     (Model.add_face m f).is_validated = false) ∧
    (m.is_validated = true →
      Model.validate (Model.add_vertex m v) = Except.ok (Model.add_vertex m v)) := by
  refine ⟨⟨rfl, rfl, rfl, rfl⟩, ⟨?_, ?_, ?_, ?_⟩, fun hv => ?_⟩
  · unfold Model.add_face Model.needs_recalc_properties
    by_cases h : 3 < f.vertices.length <;> simp [h]
  · unfold Model.add_face Model.needs_recalc_properties
    by_cases h : 3 < f.vertices.length <;> simp [h]
  · unfold Model.add_face Model.needs_recalc_properties
    by_cases h : 3 < f.vertices.length <;> simp [h]
  · unfold Model.add_face Model.needs_recalc_properties
    by_cases h : 3 < f.vertices.length <;> simp [h]
  · have : (Model.add_vertex m v).is_validated = true := hv
    unfold Model.validate
    simp [this]

/-- Witness for C4_mutator_invalidation at the freshly created empty
model (which is validated by construction). -/
theorem C4_mutator_invalidation_witness :
    ((Model.add_vertex Model.empty ⟨qi 0, qi 0, qi 0, qi 1⟩).recalc_connectivity = true ∧
     (Model.add_vertex Model.empty ⟨qi 0, qi 0, qi 0, qi 1⟩).recalc_convexity = true ∧
     (Model.add_vertex Model.empty ⟨qi 0, qi 0, qi 0, qi 1⟩).recalc_water_tightness = true ∧
     (Model.add_vertex Model.empty ⟨qi 0, qi 0, qi 0, qi 1⟩).is_validated = Model.empty.is_validated) ∧
    ((Model.add_face Model.empty (Face.mk [0, 1, 2] [] [] zero3 false)).recalc_connectivity = true ∧
     (Model.add_face Model.empty (Face.mk [0, 1, 2] [] [] zero3 false)).recalc_convexity = true ∧
     (Model.add_face Model.empty (Face.mk [0, 1, 2] [] [] zero3 false)).recalc_water_tightness = true ∧
     (Model.add_face Model.empty (Face.mk [0, 1, 2] [] [] zero3 false)).is_validated = false) ∧
    (Model.empty.is_validated = true →
      Model.validate (Model.add_vertex Model.empty ⟨qi 0, qi 0, qi 0, qi 1⟩) =
        Except.ok (Model.add_vertex Model.empty ⟨qi 0, qi 0, qi 0, qi 1⟩)) :=
  C4_mutator_invalidation Model.empty ⟨qi 0, qi 0, qi 0, qi 1⟩ (Face.mk [0, 1, 2] [] [] zero3 false)

/-- Claim C4 — counterexample to the claim as stated.  On the validated
empty model, `add_vertex` leaves `is_validated` true (the claim says it
becomes false): `add_vertex` only calls `needs_recalc_properties()` and
never touches `is_validated_` (model.cpp:77-82). -/
theorem C4_counterexample :
    Model.empty.is_validated = true ∧
      (Model.add_vertex Model.empty ⟨qi 0, qi 0, qi 0, qi 1⟩).is_validated = true ∧
      (Model.add_vertex Model.empty ⟨qi 0, qi 0, qi 0, qi 1⟩).is_validated ≠ false := by
  refine ⟨rfl, rfl, ?_⟩
  intro h
  exact Bool.noConfusion h

/-- Claim C9: on a model with zero faces (and its connectivity cache
marked for recomputation, as after creation or any mutator),
`is_connected()` returns true when the vertex array is empty and false
when it holds at least one vertex. -/
theorem C9_empty_faces_connectivity (m : Model) (hf : m.faces = [])
    (hr : m.recalc_connectivity = true) :
    (m.vertices = [] → ∃ m2, Model.is_connected_call m = some (true, m2)) ∧
    (m.vertices ≠ [] → ∃ m2, Model.is_connected_call m = some (false, m2)) := by
  have hval : Model.validate m =
      Except.ok (if m.is_validated then m else { m with is_validated := true }) := by
    unfold Model.validate
    rw [hf]
    by_cases h : m.is_validated <;> simp [h]
  have hm1f : (if m.is_validated then m else { m with is_validated := true }).faces = [] := by
    by_cases h : m.is_validated <;> simp [h, hf]
  have hm1r : (if m.is_validated then m
      else { m with is_validated := true }).recalc_connectivity = true := by
    by_cases h : m.is_validated <;> simp [h, hr]
  have hm1v : (if m.is_validated then m
      else { m with is_validated := true }).vertices = m.vertices := by
    by_cases h : m.is_validated <;> simp [h]
  constructor
  · intro hv
    unfold Model.is_connected_call
    rw [hval]
    simp only [hm1r, if_true]
    rw [check_connectivity, hm1f, hm1v, hv]
    simp
  · intro hv
    have hlen : m.vertices.length ≠ 0 := fun h => hv (List.length_eq_zero.mp h)
    unfold Model.is_connected_call
    rw [hval]
    simp only [hm1r, if_true]
    rw [check_connectivity, hm1f, hm1v]
    simp [hlen]

/-- Witness for C9_empty_faces_connectivity: the empty model (connected)
and a face-free model holding one vertex (not connected). -/
theorem C9_empty_faces_connectivity_witness :
    (∃ m2, Model.is_connected_call Model.empty = some (true, m2)) ∧
    (∃ m2, Model.is_connected_call
        { Model.empty with vertices := [⟨qi 0, qi 0, qi 0, qi 1⟩] } = some (false, m2)) :=
  ⟨(C9_empty_faces_connectivity Model.empty rfl rfl).1 rfl,
   (C9_empty_faces_connectivity { Model.empty with vertices := [⟨qi 0, qi 0, qi 0, qi 1⟩] }
      rfl rfl).2 (by simp)⟩

/-- Claim C7 — amended.  For a Face without an explicitly set normal:
`normal()` throws `ModelError` when the ring has fewer than 3 indices and
when the owning Model has expired; when the ring has at least 3 indices,
the Model is alive, AND every ring index is within the Model's vertex
array, it returns a value without throwing.  (The original claim omitted
the index-range condition: with an alive Model and ring length ≥ 3 but an
out-of-range ring index, the bounds-checked vertex access throws
`std::out_of_range`.) -/
theorem C7_normal_error_conditions (f : Face) (m : Model)
    (hns : f.is_normal_set = false) :
    (f.vertices.length < 3 →
      ∀ mo : Option Model, Face.normalE mo f = Except.error CppErr.modelError) ∧
    (3 ≤ f.vertices.length →
      Face.normalE Option.none f = Except.error CppErr.modelError) ∧
    (3 ≤ f.vertices.length → (∀ i ∈ f.vertices, i < m.vertices.length) →
      ∃ v, Face.normalE (some m) f = Except.ok v) := by
  refine ⟨fun hlt mo => ?_, fun hge => ?_, fun hge hin => ?_⟩
  · cases mo with
    | none => simp [Face.normalE, Face.compute_normal, hns, hlt]
    | some m0 => simp [Face.normalE, Face.compute_normal, hns, hlt]
  · simp [Face.normalE, Face.compute_normal, hns, Nat.not_lt.mpr hge]
  · have hany : f.vertices.any (fun i => decide (m.vertices.length ≤ i)) = false := by
      simp only [List.any_eq_false, decide_eq_true_eq]
      intro i hi
      exact Nat.not_le.mpr (hin i hi)
    refine ⟨computeNormalCore m.vertices f.vertices, ?_⟩
    simp [Face.normalE, Face.compute_normal, hns, Nat.not_lt.mpr hge, hany]

/-- Witness for C7_normal_error_conditions at a concrete triangle face of a
concrete 3-vertex model. -/
theorem C7_normal_error_conditions_witness :
    ((Face.mk [0, 1, 2] [] [] zero3 false).vertices.length < 3 →
      ∀ mo : Option Model,
        Face.normalE mo (Face.mk [0, 1, 2] [] [] zero3 false) =
          Except.error CppErr.modelError) ∧
    (3 ≤ (Face.mk [0, 1, 2] [] [] zero3 false).vertices.length →
      Face.normalE Option.none (Face.mk [0, 1, 2] [] [] zero3 false) =
        Except.error CppErr.modelError) ∧
    (3 ≤ (Face.mk [0, 1, 2] [] [] zero3 false).vertices.length →
      (∀ i ∈ (Face.mk [0, 1, 2] [] [] zero3 false).vertices,
        i < ({ Model.empty with
                vertices := [⟨qi 0, qi 0, qi 0, qi 1⟩, ⟨qi 1, qi 0, qi 0, qi 1⟩, ⟨qi 0, qi 1, qi 0, qi 1⟩] } : Model).vertices.length) →
      ∃ v, Face.normalE
          (some ({ Model.empty with
                    vertices := [⟨qi 0, qi 0, qi 0, qi 1⟩, ⟨qi 1, qi 0, qi 0, qi 1⟩, ⟨qi 0, qi 1, qi 0, qi 1⟩] } : Model))
          (Face.mk [0, 1, 2] [] [] zero3 false) = Except.ok v) :=
  C7_normal_error_conditions (Face.mk [0, 1, 2] [] [] zero3 false)
    ({ Model.empty with vertices := [⟨qi 0, qi 0, qi 0, qi 1⟩, ⟨qi 1, qi 0, qi 0, qi 1⟩, ⟨qi 0, qi 1, qi 0, qi 1⟩] } : Model)
    (by decide)

/-- Claim C7 — counterexample to the claim as stated.  A ring of length 3
on an alive Model with an empty vertex array: `normal()` does throw
(`std::out_of_range` from the bounds-checked vertex access), although the
ring has at least 3 indices and the owning Model is alive. -/
theorem C7_counterexample :
    3 ≤ (Face.mk [0, 1, 2] [] [] zero3 false).vertices.length ∧
      (Face.mk [0, 1, 2] [] [] zero3 false).is_normal_set = false ∧
      Face.normalE (some Model.empty) (Face.mk [0, 1, 2] [] [] zero3 false) =
        Except.error CppErr.outOfRange :=
  ⟨by decide, rfl, rfl⟩

/- ---------------- Triangulation loop lemmas ----------------

   Throughout, `(n-1)/2` is the number of triples emitted from `trind[0]`
   and `(n-2)/2` the number emitted from `trind[1]`; together they are the
   `n - 2` triangles of the fan. -/

theorem earFuel_len (n : Nat) (h4 : 4 ≤ n) :
    ∀ d k fuel, k + d = (n - 2) / 2 → d < fuel →
      (earFuel fuel n k).length = n - 2 - 2 * k := by
  intro d
  induction d with
  | zero =>
    intro k fuel hk hf
    cases fuel with
    | zero => omega
    | succ fl =>
      have hk2 : 2 * k = n - 2 ∨ 2 * k = n - 3 := by omega
      have h2k : (2 + k) % n = 2 + k := Nat.mod_eq_of_lt (by omega)
      have hnk : (n - k) % n = n - k := Nat.mod_eq_of_lt (by omega)
      have hn1k : (n - 1 - k) % n = n - 1 - k := Nat.mod_eq_of_lt (by omega)
      rcases hk2 with h | h
      · simp only [earFuel, hnk, h2k]
        rw [if_pos (by omega)]
        simp only [List.length_nil]
        omega
      · simp only [earFuel, hnk, h2k, hn1k]
        rw [if_neg (by omega), if_pos (by omega)]
        simp only [List.length_cons, List.length_nil]
        omega
  | succ d ih =>
    intro k fuel hk hf
    cases fuel with
    | zero => omega
    | succ fl =>
      have h2k : (2 + k) % n = 2 + k := Nat.mod_eq_of_lt (by omega)
      have hn1k : (n - 1 - k) % n = n - 1 - k := Nat.mod_eq_of_lt (by omega)
      have hT0 : ¬ (n - k) % n = (2 + k) % n := by
        rcases Nat.eq_zero_or_pos k with hz | hp
        · subst hz
          rw [Nat.sub_zero, Nat.mod_self, h2k]
          omega
        · rw [Nat.mod_eq_of_lt (by omega), h2k]
          omega
      have hT1 : ¬ (n - 1 - k) % n = (2 + k) % n := by
        rw [hn1k, h2k]
        omega
      simp only [earFuel]
      rw [if_neg hT0, if_neg hT1]
      simp only [List.length_cons]
      rw [ih (k + 1) fl (by omega) (by omega)]
      omega

theorem earFuel_comp_lt (n : Nat) (hn : 0 < n) :
    ∀ fuel k, ∀ t ∈ earFuel fuel n k, t.1 < n ∧ t.2.1 < n ∧ t.2.2 < n := by
  intro fuel
  induction fuel with
  | zero => intro k t ht; simp [earFuel] at ht
  | succ fl ih =>
    intro k t ht
    simp only [earFuel] at ht
    by_cases h0 : (n - k) % n = (2 + k) % n
    · rw [if_pos h0] at ht
      simp at ht
    · rw [if_neg h0] at ht
      rcases List.mem_cons.mp ht with rfl | ht2
      · exact ⟨Nat.mod_lt _ hn, Nat.mod_lt _ hn, Nat.mod_lt _ hn⟩
      · by_cases h1 : (n - 1 - k) % n = (2 + k) % n
        · rw [if_pos h1] at ht2
          simp at ht2
        · rw [if_neg h1] at ht2
          rcases List.mem_cons.mp ht2 with rfl | ht3
          · exact ⟨Nat.mod_lt _ hn, Nat.mod_lt _ hn, Nat.mod_lt _ hn⟩
          · exact ih (k + 1) t ht3

theorem earFuel_mem_T0 (n : Nat) (h4 : 4 ≤ n) :
    ∀ fuel k j, k ≤ j → j < (n - 1) / 2 → j - k < fuel →
      T0form n j ∈ earFuel fuel n k := by
  intro fuel
  induction fuel with
  | zero => intro k j h1 h2 h3; omega
  | succ fl ih =>
    intro k j h1 h2 h3
    have h2k : (2 + k) % n = 2 + k := Nat.mod_eq_of_lt (by omega)
    have hT0 : ¬ (n - k) % n = (2 + k) % n := by
      rcases Nat.eq_zero_or_pos k with hz | hp
      · subst hz
        rw [Nat.sub_zero, Nat.mod_self, h2k]
        omega
      · rw [Nat.mod_eq_of_lt (by omega), h2k]
        omega
    simp only [earFuel]
    rw [if_neg hT0]
    rcases Nat.eq_or_lt_of_le h1 with rfl | hlt
    · exact List.mem_cons_self _ _
    · have hT1 : ¬ (n - 1 - k) % n = (2 + k) % n := by
        rw [Nat.mod_eq_of_lt (by omega), h2k]
        omega
      rw [if_neg hT1]
      exact List.mem_cons_of_mem _
        (List.mem_cons_of_mem _ (ih (k + 1) j (by omega) h2 (by omega)))

theorem earFuel_mem_T1 (n : Nat) (h4 : 4 ≤ n) :
    ∀ fuel k j, k ≤ j → j < (n - 2) / 2 → j - k < fuel →
      T1form n j ∈ earFuel fuel n k := by
  intro fuel
  induction fuel with
  | zero => intro k j h1 h2 h3; omega
  | succ fl ih =>
    intro k j h1 h2 h3
    have h2k : (2 + k) % n = 2 + k := Nat.mod_eq_of_lt (by omega)
    have hT0 : ¬ (n - k) % n = (2 + k) % n := by
      rcases Nat.eq_zero_or_pos k with hz | hp
      · subst hz
        rw [Nat.sub_zero, Nat.mod_self, h2k]
        omega
      · rw [Nat.mod_eq_of_lt (by omega), h2k]
        omega
    have hT1 : ¬ (n - 1 - k) % n = (2 + k) % n := by
      rw [Nat.mod_eq_of_lt (by omega), h2k]
      omega
    simp only [earFuel]
    rw [if_neg hT0, if_neg hT1]
    rcases Nat.eq_or_lt_of_le h1 with rfl | hlt
    · exact List.mem_cons_of_mem _ (List.mem_cons_self _ _)
    · exact List.mem_cons_of_mem _
        (List.mem_cons_of_mem _ (ih (k + 1) j (by omega) h2 (by omega)))

theorem earFuel_char (n : Nat) (h4 : 4 ≤ n) :
    ∀ fuel k, k ≤ (n - 2) / 2 →
      ∀ t ∈ earFuel fuel n k, ∃ j, k ≤ j ∧
        ((j < (n - 1) / 2 ∧ t = T0form n j) ∨
          (j < (n - 2) / 2 ∧ t = T1form n j)) := by
  intro fuel
  induction fuel with
  | zero => intro k hk t ht; simp [earFuel] at ht
  | succ fl ih =>
    intro k hk t ht
    simp only [earFuel] at ht
    by_cases h0 : (n - k) % n = (2 + k) % n
    · rw [if_pos h0] at ht
      simp at ht
    · rw [if_neg h0] at ht
      have h2k : (2 + k) % n = 2 + k := Nat.mod_eq_of_lt (by omega)
      have hkK0 : k < (n - 1) / 2 := by
        rcases Nat.eq_zero_or_pos k with hz | hp
        · omega
        · rw [Nat.mod_eq_of_lt (show n - k < n by omega), h2k] at h0
          omega
      rcases List.mem_cons.mp ht with rfl | ht2
      · exact ⟨k, Nat.le_refl k, Or.inl ⟨hkK0, rfl⟩⟩
      · by_cases h1 : (n - 1 - k) % n = (2 + k) % n
        · rw [if_pos h1] at ht2
          simp at ht2
        · rw [if_neg h1] at ht2
          rw [Nat.mod_eq_of_lt (show n - 1 - k < n by omega), h2k] at h1
          have hkK1 : k < (n - 2) / 2 := by
            rcases Nat.eq_zero_or_pos k with hz | hp
            · omega
            · rw [Nat.mod_eq_of_lt (show n - k < n by omega), h2k] at h0
              omega
          rcases List.mem_cons.mp ht2 with rfl | ht3
          · exact ⟨k, Nat.le_refl k, Or.inr ⟨hkK1, rfl⟩⟩
          · obtain ⟨j, hj1, hj2⟩ := ih (k + 1) (by omega) t ht3
            exact ⟨j, by omega, hj2⟩

theorem T0form_zero (n : Nat) (h4 : 4 ≤ n) : T0form n 0 = (0, 1, 2) := by
  unfold T0form
  rw [Nat.sub_zero, Nat.mod_self, Nat.mod_eq_of_lt (show 1 + 0 < n by omega),
    Nat.mod_eq_of_lt (show 2 + 0 < n by omega)]

theorem T0form_pos (n j : Nat) (h4 : 4 ≤ n) (hp : 0 < j) (hj : j < (n - 1) / 2) :
    T0form n j = (n - j, 1 + j, 2 + j) := by
  unfold T0form
  rw [Nat.mod_eq_of_lt (show n - j < n by omega),
    Nat.mod_eq_of_lt (show 1 + j < n by omega),
    Nat.mod_eq_of_lt (show 2 + j < n by omega)]

theorem T1form_zero (n : Nat) (h4 : 4 ≤ n) : T1form n 0 = (n - 1, 0, 2) := by
  unfold T1form
  rw [Nat.sub_zero, Nat.sub_zero, Nat.mod_self,
    Nat.mod_eq_of_lt (show n - 1 < n by omega),
    Nat.mod_eq_of_lt (show 2 + 0 < n by omega)]

theorem T1form_pos (n j : Nat) (h4 : 4 ≤ n) (hp : 0 < j) (hj : j < (n - 2) / 2) :
    T1form n j = (n - 1 - j, n - j, 2 + j) := by
  unfold T1form
  rw [Nat.mod_eq_of_lt (show n - 1 - j < n by omega),
    Nat.mod_eq_of_lt (show n - j < n by omega),
    Nat.mod_eq_of_lt (show 2 + j < n by omega)]

theorem T0T0_ne (n : Nat) (h4 : 4 ≤ n) (j j' : Nat) (hj : j < (n - 1) / 2)
    (hj' : j' < (n - 1) / 2) (hne : j ≠ j') :
    triplePos (T0form n j) ≠ triplePos (T0form n j') := by
  intro heq
  unfold triplePos at heq
  rcases Nat.eq_zero_or_pos j with rfl | hpj <;>
    rcases Nat.eq_zero_or_pos j' with rfl | hpj'
  · exact hne rfl
  · rw [T0form_zero n h4, T0form_pos n j' h4 hpj' hj', Finset.ext_iff] at heq
    have e1 := heq 0
    have e2 := heq 1
    have e3 := heq 2
    have e4 := heq (n - j')
    have e5 := heq (1 + j')
    have e6 := heq (2 + j')
    simp at e1 e2 e3 e4 e5 e6
    omega
  · rw [T0form_zero n h4, T0form_pos n j h4 hpj hj, Finset.ext_iff] at heq
    have e1 := heq 0
    have e2 := heq 1
    have e3 := heq 2
    have e4 := heq (n - j)
    have e5 := heq (1 + j)
    have e6 := heq (2 + j)
    simp at e1 e2 e3 e4 e5 e6
    omega
  · rw [T0form_pos n j h4 hpj hj, T0form_pos n j' h4 hpj' hj', Finset.ext_iff] at heq
    have e1 := heq (n - j)
    have e2 := heq (1 + j)
    have e3 := heq (2 + j)
    have e4 := heq (n - j')
    have e5 := heq (1 + j')
    have e6 := heq (2 + j')
    simp at e1 e2 e3 e4 e5 e6
    omega

theorem T1T1_ne (n : Nat) (h4 : 4 ≤ n) (j j' : Nat) (hj : j < (n - 2) / 2)
    (hj' : j' < (n - 2) / 2) (hne : j ≠ j') :
    triplePos (T1form n j) ≠ triplePos (T1form n j') := by
  intro heq
  unfold triplePos at heq
  rcases Nat.eq_zero_or_pos j with rfl | hpj <;>
    rcases Nat.eq_zero_or_pos j' with rfl | hpj'
  · exact hne rfl
  · rw [T1form_zero n h4, T1form_pos n j' h4 hpj' hj', Finset.ext_iff] at heq
    have e1 := heq (n - 1)
    have e2 := heq 0
    have e3 := heq 2
    have e4 := heq (n - 1 - j')
    have e5 := heq (n - j')
    have e6 := heq (2 + j')
    simp at e1 e2 e3 e4 e5 e6
    omega
  · rw [T1form_zero n h4, T1form_pos n j h4 hpj hj, Finset.ext_iff] at heq
    have e1 := heq (n - 1)
    have e2 := heq 0
    have e3 := heq 2
    have e4 := heq (n - 1 - j)
    have e5 := heq (n - j)
    have e6 := heq (2 + j)
    simp at e1 e2 e3 e4 e5 e6
    omega
  · rw [T1form_pos n j h4 hpj hj, T1form_pos n j' h4 hpj' hj', Finset.ext_iff] at heq
    have e1 := heq (n - 1 - j)
    have e2 := heq (n - j)
    have e3 := heq (2 + j)
    have e4 := heq (n - 1 - j')
    have e5 := heq (n - j')
    have e6 := heq (2 + j')
    simp at e1 e2 e3 e4 e5 e6
    omega

theorem T0T1_ne (n : Nat) (h4 : 4 ≤ n) (j j' : Nat) (hj : j < (n - 1) / 2)
    (hj' : j' < (n - 2) / 2) :
    triplePos (T0form n j) ≠ triplePos (T1form n j') := by
  intro heq
  unfold triplePos at heq
  rcases Nat.eq_zero_or_pos j with rfl | hpj <;>
    rcases Nat.eq_zero_or_pos j' with rfl | hpj'
  · rw [T0form_zero n h4, T1form_zero n h4, Finset.ext_iff] at heq
    have e1 := heq 1
    simp at e1
    omega
  · rw [T0form_zero n h4, T1form_pos n j' h4 hpj' hj', Finset.ext_iff] at heq
    have e1 := heq 0
    have e2 := heq 1
    have e3 := heq 2
    have e4 := heq (n - 1 - j')
    have e5 := heq (n - j')
    have e6 := heq (2 + j')
    simp at e1 e2 e3 e4 e5 e6
    omega
  · rw [T0form_pos n j h4 hpj hj, T1form_zero n h4, Finset.ext_iff] at heq
    have e1 := heq (n - j)
    have e2 := heq (1 + j)
    have e3 := heq (2 + j)
    have e4 := heq (n - 1)
    have e5 := heq 0
    have e6 := heq 2
    simp at e1 e2 e3 e4 e5 e6
    omega
  · rw [T0form_pos n j h4 hpj hj, T1form_pos n j' h4 hpj' hj', Finset.ext_iff] at heq
    have e1 := heq (n - j)
    have e2 := heq (1 + j)
    have e3 := heq (2 + j)
    have e4 := heq (n - 1 - j')
    have e5 := heq (n - j')
    have e6 := heq (2 + j')
    simp at e1 e2 e3 e4 e5 e6
    omega

theorem card_triple_of_ne (a b c : Nat) (hab : a ≠ b) (hac : a ≠ c) (hbc : b ≠ c) :
    ({a, b, c} : Finset Nat).card = 3 := by
  rw [Finset.card_insert_of_not_mem (by simp [hab, hac]),
    Finset.card_insert_of_not_mem (by simp [hbc]), Finset.card_singleton]

theorem T0form_card (n j : Nat) (h4 : 4 ≤ n) (hj : j < (n - 1) / 2) :
    (triplePos (T0form n j)).card = 3 := by
  unfold triplePos
  rcases Nat.eq_zero_or_pos j with rfl | hp
  · rw [T0form_zero n h4]
    show ({0, 1, 2} : Finset Nat).card = 3
    exact card_triple_of_ne 0 1 2 (by omega) (by omega) (by omega)
  · rw [T0form_pos n j h4 hp hj]
    show ({n - j, 1 + j, 2 + j} : Finset Nat).card = 3
    exact card_triple_of_ne _ _ _ (by omega) (by omega) (by omega)

theorem T1form_card (n j : Nat) (h4 : 4 ≤ n) (hj : j < (n - 2) / 2) :
    (triplePos (T1form n j)).card = 3 := by
  unfold triplePos
  rcases Nat.eq_zero_or_pos j with rfl | hp
  · rw [T1form_zero n h4]
    show ({n - 1, 0, 2} : Finset Nat).card = 3
    exact card_triple_of_ne _ _ _ (by omega) (by omega) (by omega)
  · rw [T1form_pos n j h4 hp hj]
    show ({n - 1 - j, n - j, 2 + j} : Finset Nat).card = 3
    exact card_triple_of_ne _ _ _ (by omega) (by omega) (by omega)

theorem earFuel_pairwise (n : Nat) (h4 : 4 ≤ n) :
    ∀ fuel k, k ≤ (n - 2) / 2 →
      (earFuel fuel n k).Pairwise (fun a b => triplePos a ≠ triplePos b) := by
  intro fuel
  induction fuel with
  | zero => intro k hk; simp [earFuel]
  | succ fl ih =>
    intro k hk
    simp only [earFuel]
    by_cases h0 : (n - k) % n = (2 + k) % n
    · rw [if_pos h0]
      exact List.Pairwise.nil
    · rw [if_neg h0]
      have h2k : (2 + k) % n = 2 + k := Nat.mod_eq_of_lt (by omega)
      have hkK0 : k < (n - 1) / 2 := by
        rcases Nat.eq_zero_or_pos k with hz | hp
        · omega
        · rw [Nat.mod_eq_of_lt (show n - k < n by omega), h2k] at h0
          omega
      by_cases h1 : (n - 1 - k) % n = (2 + k) % n
      · rw [if_pos h1]
        exact List.pairwise_singleton _ _
      · rw [if_neg h1]
        rw [Nat.mod_eq_of_lt (show n - 1 - k < n by omega), h2k] at h1
        have hkK1 : k < (n - 2) / 2 := by
          rcases Nat.eq_zero_or_pos k with hz | hp
          · omega
          · rw [Nat.mod_eq_of_lt (show n - k < n by omega), h2k] at h0
            omega
        have hchar := earFuel_char n h4 fl (k + 1) (by omega)
        refine List.Pairwise.cons ?_ (List.Pairwise.cons ?_ (ih (k + 1) (by omega)))
        · intro b hb
          rcases List.mem_cons.mp hb with rfl | hb2
          · exact T0T1_ne n h4 k k hkK0 hkK1
          · obtain ⟨j, hj1, hj2⟩ := hchar b hb2
            rcases hj2 with ⟨hjr, rfl⟩ | ⟨hjr, rfl⟩
            · exact T0T0_ne n h4 k j hkK0 hjr (by omega)
            · exact T0T1_ne n h4 k j hkK0 hjr
        · intro b hb2
          obtain ⟨j, hj1, hj2⟩ := hchar b hb2
          rcases hj2 with ⟨hjr, rfl⟩ | ⟨hjr, rfl⟩
          · exact Ne.symm (T0T1_ne n h4 j k hjr hkK1)
          · exact T1T1_ne n h4 k j hkK1 hjr (by omega)

/- ---------------- Finset bridges for the comparator ---------------- -/

theorem sortedDedup_toFinset (l : List Nat) : (sortedDedup l).toFinset = l.toFinset := by
  ext x
  simp [List.mem_toFinset, mem_sortedDedup]

theorem interCard_eq_card (a b : List Nat) :
    interCard a b = (a.toFinset ∩ b.toFinset).card := by
  unfold interCard
  rw [← List.toFinset_card_of_nodup ((sortedDedup_nodup a).filter _)]
  congr 1
  ext z
  simp [List.mem_toFinset, List.mem_filter, mem_sortedDedup, Finset.mem_inter]

theorem sortedDedup_eq_iff (a b : List Nat) :
    sortedDedup a = sortedDedup b ↔ a.toFinset = b.toFinset := by
  constructor
  · intro h
    rw [← sortedDedup_toFinset a, ← sortedDedup_toFinset b, h]
  · intro h
    haveI : IsAntisymm Nat (· < ·) := ⟨fun x y h1 h2 => absurd h1 (Nat.lt_asymm h2)⟩
    refine List.eq_of_perm_of_sorted ?_ (sortedDedup_sorted a) (sortedDedup_sorted b)
    refine List.perm_of_nodup_nodup_toFinset_eq (sortedDedup_nodup a)
      (sortedDedup_nodup b) ?_
    rw [sortedDedup_toFinset, sortedDedup_toFinset, h]

/-- Comparator non-equivalence in Finset language. -/
theorem equivFalse_iff (g f : Face) :
    faceEquiv g f = false ↔
      (g.vertices.toFinset ∩ f.vertices.toFinset).card ≤ 2 ∧
        g.vertices.toFinset ≠ f.vertices.toFinset := by
  rw [Bool.eq_false_iff]
  constructor
  · intro h
    constructor
    · by_contra hc
      exact h ((faceEquiv_iff g f).mpr (Or.inl (by rw [interCard_eq_card]; omega)))
    · intro hc
      exact h ((faceEquiv_iff g f).mpr (Or.inr ((sortedDedup_eq_iff _ _).mpr hc)))
  · rintro ⟨h1, h2⟩ habs
    rcases (faceEquiv_iff g f).mp habs with h | h
    · rw [interCard_eq_card] at h
      omega
    · exact h2 ((sortedDedup_eq_iff _ _).mp h)

theorem faceEquiv_rfl (f : Face) : faceEquiv f f = true := by
  unfold faceEquiv Face.lt
  rw [listLexLt_irrefl]
  simp

theorem faceEquiv_comm (a b : Face) : faceEquiv a b = faceEquiv b a := by
  unfold faceEquiv
  exact Bool.and_comm _ _

/- ---------------- Sub-triangle value sets ---------------- -/

theorem getD_inj_lt (r : List Nat) (hnd : r.Nodup) (p1 p2 : Nat)
    (h1 : p1 < r.length) (h2 : p2 < r.length)
    (he : r.getD p1 0 = r.getD p2 0) : p1 = p2 := by
  rw [List.getD_eq_getElem?_getD, List.getD_eq_getElem?_getD,
    List.getElem?_eq_getElem h1, List.getElem?_eq_getElem h2] at he
  simp only [Option.getD_some] at he
  exact (List.Nodup.getElem_inj_iff hnd).mp he

theorem getD_mem_of_lt (r : List Nat) (p : Nat) (h : p < r.length) :
    r.getD p 0 ∈ r := by
  rw [List.getD_eq_getElem?_getD, List.getElem?_eq_getElem h]
  simp only [Option.getD_some]
  exact List.getElem_mem h

/-- The ring of a fan triangle, explicitly. -/
theorem subFace_tri_vertices (f : Face) (t : Nat × Nat × Nat) :
    (subFace f [t.1, t.2.1, t.2.2]).vertices =
      [f.vertices.getD t.1 0, f.vertices.getD t.2.1 0, f.vertices.getD t.2.2 0] := rfl

theorem subFace_tri_toFinset (f : Face) (t : Nat × Nat × Nat) :
    (subFace f [t.1, t.2.1, t.2.2]).vertices.toFinset =
      (triplePos t).image (fun p => f.vertices.getD p 0) := by
  rw [subFace_tri_vertices]
  unfold triplePos
  ext x
  simp only [List.toFinset_cons, List.toFinset_nil, Finset.mem_insert,
    Finset.mem_singleton, Finset.mem_image, Finset.insert_empty]
  constructor
  · rintro (rfl | rfl | rfl)
    · exact ⟨t.1, by simp⟩
    · exact ⟨t.2.1, by simp⟩
    · exact ⟨t.2.2, by simp⟩
  · rintro ⟨p, (rfl | rfl | rfl), rfl⟩
    · exact Or.inl rfl
    · exact Or.inr (Or.inl rfl)
    · exact Or.inr (Or.inr rfl)

/-- Value sets of fan triangles sit inside the parent ring's value set. -/
theorem subFace_tri_subset (f : Face) (t : Nat × Nat × Nat)
    (h : t.1 < f.vertices.length ∧ t.2.1 < f.vertices.length ∧
      t.2.2 < f.vertices.length) :
    (subFace f [t.1, t.2.1, t.2.2]).vertices.toFinset ⊆ f.vertices.toFinset := by
  rw [subFace_tri_toFinset]
  intro x hx
  rw [Finset.mem_image] at hx
  obtain ⟨p, hp, rfl⟩ := hx
  have hplt : p < f.vertices.length := by
    unfold triplePos at hp
    rcases Finset.mem_insert.mp hp with rfl | hp2
    · exact h.1
    · rcases Finset.mem_insert.mp hp2 with rfl | hp3
      · exact h.2.1
      · rw [Finset.mem_singleton] at hp3
        subst hp3
        exact h.2.2
  rw [List.mem_toFinset]
  exact getD_mem_of_lt _ _ hplt

/- ---------------- Fan triangle non-equivalence ---------------- -/

theorem earTriples_spec (n : Nat) (h4 : 4 ≤ n) :
    ∀ t ∈ earTriples n,
      (t.1 < n ∧ t.2.1 < n ∧ t.2.2 < n) ∧ (triplePos t).card = 3 := by
  intro t ht
  refine ⟨earFuel_comp_lt n (by omega) n 0 t ht, ?_⟩
  obtain ⟨j, hj0, hj⟩ := earFuel_char n h4 n 0 (by omega) t ht
  rcases hj with ⟨hjr, rfl⟩ | ⟨hjr, rfl⟩
  · exact T0form_card n j h4 hjr
  · exact T1form_card n j h4 hjr

theorem triplePos_card_le (t : Nat × Nat × Nat) : (triplePos t).card ≤ 3 := by
  unfold triplePos
  refine le_trans (Finset.card_insert_le _ _) (Nat.succ_le_succ ?_)
  refine le_trans (Finset.card_insert_le _ _) (Nat.succ_le_succ ?_)
  exact le_of_eq (Finset.card_singleton _)

theorem card_inter_le_two (P R : Finset Nat) (h3 : P.card ≤ 3) (h3' : R.card ≤ 3)
    (hne : P ≠ R) : (P ∩ R).card ≤ 2 := by
  by_contra h
  push_neg at h
  have h1 : P ∩ R = P :=
    Finset.eq_of_subset_of_card_le Finset.inter_subset_left (by omega)
  have h2 : P ∩ R = R :=
    Finset.eq_of_subset_of_card_le Finset.inter_subset_right (by omega)
  exact hne (h1.symm.trans h2)

theorem image_getD_inj (r : List Nat) (hnd : r.Nodup) (P R : Finset Nat)
    (hP : ∀ p ∈ P, p < r.length) (hR : ∀ p ∈ R, p < r.length)
    (him : P.image (fun p => r.getD p 0) = R.image (fun p => r.getD p 0)) :
    P = R := by
  ext p
  constructor
  · intro hp
    have hm : r.getD p 0 ∈ R.image (fun p => r.getD p 0) :=
      him ▸ Finset.mem_image_of_mem _ hp
    obtain ⟨p2, hp2, he⟩ := Finset.mem_image.mp hm
    exact (getD_inj_lt r hnd p2 p (hR p2 hp2) (hP p hp) he) ▸ hp2
  · intro hp
    have hm : r.getD p 0 ∈ P.image (fun p => r.getD p 0) :=
      him.symm ▸ Finset.mem_image_of_mem _ hp
    obtain ⟨p2, hp2, he⟩ := Finset.mem_image.mp hm
    exact (getD_inj_lt r hnd p2 p (hP p2 hp2) (hR p hp) he) ▸ hp2

theorem triplePos_bound (t : Nat × Nat × Nat) (n : Nat)
    (h : t.1 < n ∧ t.2.1 < n ∧ t.2.2 < n) : ∀ p ∈ triplePos t, p < n := by
  intro p hp
  unfold triplePos at hp
  rcases Finset.mem_insert.mp hp with rfl | hp2
  · exact h.1
  · rcases Finset.mem_insert.mp hp2 with rfl | hp3
    · exact h.2.1
    · rw [Finset.mem_singleton] at hp3
      subst hp3
      exact h.2.2

/-- The value set of a fan triangle has exactly 3 elements (duplicate-free
parent ring). -/
theorem tri_toFinset_card (f : Face) (t : Nat × Nat × Nat)
    (h4 : 4 ≤ f.vertices.length) (hnd : f.vertices.Nodup)
    (ht : t ∈ earTriples f.vertices.length) :
    (subFace f [t.1, t.2.1, t.2.2]).vertices.toFinset.card = 3 := by
  obtain ⟨hb, hc⟩ := earTriples_spec _ h4 t ht
  rw [subFace_tri_toFinset]
  rw [Finset.card_image_of_injOn, hc]
  intro p hp p2 hp2 he
  exact getD_inj_lt _ hnd p p2
    (triplePos_bound t _ hb p (Finset.mem_coe.mp hp))
    (triplePos_bound t _ hb p2 (Finset.mem_coe.mp hp2)) he

/-- Two fan triangles of the same (duplicate-free) parent with different
position sets are never comparator-equivalent. -/
theorem tri_equiv_false_same (f : Face) (t t2 : Nat × Nat × Nat)
    (h4 : 4 ≤ f.vertices.length) (hnd : f.vertices.Nodup)
    (ht : t ∈ earTriples f.vertices.length)
    (ht2 : t2 ∈ earTriples f.vertices.length)
    (hdiff : triplePos t ≠ triplePos t2) :
    faceEquiv (subFace f [t.1, t.2.1, t.2.2])
      (subFace f [t2.1, t2.2.1, t2.2.2]) = false := by
  obtain ⟨hb, hc⟩ := earTriples_spec _ h4 t ht
  obtain ⟨hb2, hc2⟩ := earTriples_spec _ h4 t2 ht2
  have hinj : Set.InjOn (fun p => f.vertices.getD p 0)
      (↑(triplePos t) ∪ ↑(triplePos t2)) := by
    intro p hp p2 hp2 he
    have hlt : ∀ p3 : Nat, p3 ∈ (↑(triplePos t) ∪ ↑(triplePos t2) : Set Nat) →
        p3 < f.vertices.length := by
      intro p3 hp3
      rcases hp3 with h | h
      · exact triplePos_bound t _ hb p3 (Finset.mem_coe.mp h)
      · exact triplePos_bound t2 _ hb2 p3 (Finset.mem_coe.mp h)
    exact getD_inj_lt _ hnd p p2 (hlt p hp) (hlt p2 hp2) he
  rw [equivFalse_iff, subFace_tri_toFinset, subFace_tri_toFinset]
  constructor
  · rw [← Finset.image_inter_of_injOn _ _ hinj]
    refine le_trans (Finset.card_image_le) ?_
    exact card_inter_le_two _ _ (triplePos_card_le t) (triplePos_card_le t2) hdiff
  · intro he
    refine hdiff ?_
    refine image_getD_inj f.vertices hnd _ _
      (triplePos_bound t _ hb) (triplePos_bound t2 _ hb2) he

/-- A fan triangle of parent `f` is never comparator-equivalent to a face
whose vertex set shares at most 2 indices with `f`'s. -/
theorem tri_equiv_false_outer (g f : Face) (t : Nat × Nat × Nat)
    (h4 : 4 ≤ f.vertices.length) (hnd : f.vertices.Nodup)
    (ht : t ∈ earTriples f.vertices.length)
    (hshare : (g.vertices.toFinset ∩ f.vertices.toFinset).card ≤ 2) :
    faceEquiv g (subFace f [t.1, t.2.1, t.2.2]) = false := by
  obtain ⟨hb, _⟩ := earTriples_spec _ h4 t ht
  have hsub := subFace_tri_subset f t hb
  have hcard := tri_toFinset_card f t h4 hnd ht
  rw [equivFalse_iff]
  constructor
  · refine le_trans (Finset.card_le_card
      (Finset.inter_subset_inter (Finset.Subset.refl _) hsub)) hshare
  · intro he
    have h1 : g.vertices.toFinset ⊆ f.vertices.toFinset := he ▸ hsub
    have h2 : g.vertices.toFinset ∩ f.vertices.toFinset = g.vertices.toFinset :=
      Finset.inter_eq_left.mpr h1
    rw [h2, he, hcard] at hshare
    omega

/-- The fan triangles of one face are pairwise non-equivalent. -/
theorem fanTriangles_pairwise (f : Face) (h4 : 4 ≤ f.vertices.length)
    (hnd : f.vertices.Nodup) :
    (fanTriangles f).Pairwise fun a b => faceEquiv a b = false := by
  unfold fanTriangles
  rw [List.pairwise_map]
  have hpw := earFuel_pairwise f.vertices.length h4 f.vertices.length 0 (by omega)
  have hpw2 := List.Pairwise.and_mem.mp hpw
  refine hpw2.imp ?_
  rintro t t2 ⟨ht, ht2, hdiff⟩
  exact tri_equiv_false_same f t t2 h4 hnd ht ht2 hdiff

/- ---------------- Container fold lemmas ---------------- -/

theorem foldl_facesInsert_append : ∀ (l acc : List Face),
    (∀ t ∈ l, ∀ g ∈ acc, faceEquiv g t = false) →
    l.Pairwise (fun a b => faceEquiv a b = false) →
    l.foldl facesInsert acc = acc ++ l := by
  intro l
  induction l with
  | nil => intro acc _ _; simp
  | cons t ts ih =>
    intro acc h1 h2
    have hins : facesInsert acc t = acc ++ [t] := by
      unfold facesInsert
      have hany : acc.any (fun g => faceEquiv g t) = false := by
        rw [List.any_eq_false]
        intro g hg
        rw [h1 t (List.mem_cons_self _ _) g hg]
        exact Bool.false_ne_true
      rw [hany]
      simp
    rw [List.foldl_cons, hins,
      ih (acc ++ [t]) ?_ (List.pairwise_cons.mp h2).2]
    · simp
    · intro t2 ht2 g hg
      rcases List.mem_append.mp hg with hga | hgt
      · exact h1 t2 (List.mem_cons_of_mem _ ht2) g hga
      · rw [List.mem_singleton] at hgt
        subst hgt
        exact (List.pairwise_cons.mp h2).1 t2 ht2

/- ---------------- Convexify on already-convex faces ---------------- -/

theorem splitFold_inside (mv : List Vec4) (ring : List Nat) (nrm : Vec3) (i : Nat) :
    ∀ js : List Nat, ∀ inner : List Nat,
      (∀ j ∈ js, insideTest mv ring nrm i j = true) →
      ((js.foldl (splitStep mv ring nrm i) ⟨inner, [], true⟩).outer = [] ∧
        (js.foldl (splitStep mv ring nrm i) ⟨inner, [], true⟩).prevInside = true) := by
  intro js
  induction js with
  | nil => intro inner _; exact ⟨rfl, rfl⟩
  | cons j js ih =>
    intro inner hall
    rw [List.foldl_cons]
    have hstep : splitStep mv ring nrm i ⟨inner, [], true⟩ j =
        ⟨inner ++ [(i + j) % ring.length], [], true⟩ := by
      unfold splitStep
      rw [hall j (List.mem_cons_self _ _)]
      rfl
    rw [hstep]
    exact ih _ (fun j2 hj2 => hall j2 (List.mem_cons_of_mem _ hj2))

theorem edgeSplit_isEmpty (mv : List Vec4) (ring : List Nat) (nrm : Vec3) (i : Nat)
    (h : ∀ j, 2 ≤ j → j < ring.length → insideTest mv ring nrm i j = true) :
    (edgeSplit mv ring nrm i).2.isEmpty = true := by
  unfold edgeSplit
  dsimp only
  have hsf := splitFold_inside mv ring nrm i
    ((List.range (ring.length - 2)).map fun k => k + 2) [i, (i + 1) % ring.length] ?_
  · rw [hsf.2, if_pos rfl, hsf.1]
    rfl
  · intro j hj
    obtain ⟨k, hk, rfl⟩ := List.mem_map.mp hj
    have hk2 := List.mem_range.mp hk
    exact h (k + 2) (by omega) (by omega)

theorem scanEdges_none (mv : List Vec4) (ring : List Nat) (nrm : Vec3)
    (h : ∀ i, i < ring.length → ∀ j, 2 ≤ j → j < ring.length →
      insideTest mv ring nrm i j = true) :
    ∀ idxs : List Nat, ∀ vis, (∀ i ∈ idxs, i < ring.length) →
      (scanEdges mv ring nrm idxs vis).2 = Option.none := by
  intro idxs
  induction idxs with
  | nil => intro vis _; rfl
  | cons i rest ih =>
    intro vis hidx
    simp only [scanEdges]
    by_cases hv : (ring.getD i 0, ring.getD ((i + 1) % ring.length) 0) ∈ vis
    · rw [if_pos hv]
      exact ih vis (fun i2 hi2 => hidx i2 (List.mem_cons_of_mem _ hi2))
    · rw [if_neg hv]
      have hemp := edgeSplit_isEmpty mv ring nrm i
        (fun j h1 h2 => h i (hidx i (List.mem_cons_self _ _)) j h1 h2)
      rw [if_pos hemp]
      exact ih _ (fun i2 hi2 => hidx i2 (List.mem_cons_of_mem _ hi2))

theorem processQueue_nil (m : Model) (fuel : Nat) (vis : List (Nat × Nat))
    (acc : List Face) : processQueue m fuel vis [] acc = some acc := by
  cases fuel <;> rfl

theorem processQueue_convex (m : Model) (fuel : Nat) (vis : List (Nat × Nat))
    (f : Face) (acc : List Face) (h3 : ¬ f.vertices.length = 3)
    (hcf : ConvexFace m f) (hfuel : 1 ≤ fuel) :
    processQueue m fuel vis [f] acc = some (facesInsert acc f) := by
  obtain ⟨nrm, hnrm, hin⟩ := hcf
  cases fuel with
  | zero => omega
  | succ fl =>
    have hnone : (scanEdges m.vertices f.vertices nrm
        (List.range f.vertices.length) vis).2 = Option.none := by
      refine scanEdges_none m.vertices f.vertices nrm ?_
        (List.range f.vertices.length) vis ?_
      · intro i hi j h2 hj
        exact hin i (List.mem_range.mpr hi) j (List.mem_range.mpr hj) h2
      · intro i hi
        exact List.mem_range.mp hi
    simp only [processQueue, h3, if_false, hnrm, hnone, processQueue_nil]

theorem convexifyGo_spec (m : Model) (fuel : Nat) (hfuel : 1 ≤ fuel) :
    ∀ fs kept nf,
      (∀ f ∈ fs, f.vertices.length = 3 ∨
        (¬ f.vertices.length = 3 ∧ ConvexFace m f)) →
      convexifyGo m fuel fs kept nf =
        some (kept ++ fs.filter (fun f => decide (f.vertices.length = 3)),
          (fs.filter fun f => ! decide (f.vertices.length = 3)).foldl
            facesInsert nf) := by
  intro fs
  induction fs with
  | nil => intro kept nf _; simp [convexifyGo]
  | cons f fs ih =>
    intro kept nf hall
    by_cases h3 : f.vertices.length = 3
    · simp only [convexifyGo]
      rw [if_pos h3, ih (kept ++ [f]) nf
        (fun g hg => hall g (List.mem_cons_of_mem _ hg))]
      simp [List.filter_cons, h3]
    · have hcf : ConvexFace m f :=
        ((hall f (List.mem_cons_self _ _)).resolve_left h3).2
      simp only [convexifyGo]
      rw [if_neg h3, processQueue_convex m fuel [] f nf h3 hcf hfuel]
      simp only []
      rw [ih kept (facesInsert nf f)
        (fun g hg => hall g (List.mem_cons_of_mem _ hg))]
      simp [List.filter_cons, h3]

theorem pairwise_equivFalse_forall (l : List Face)
    (hp : l.Pairwise fun a b => faceEquiv a b = false) :
    ∀ a ∈ l, ∀ b ∈ l, a ≠ b → faceEquiv a b = false := by
  have hsymm : Symmetric fun a b : Face => faceEquiv a b = false := by
    intro a b h
    rw [faceEquiv_comm]
    exact h
  exact fun a ha b hb hne => List.Pairwise.forall hsymm hp ha hb hne

/-- On a validated, non-triangulated model whose non-triangle faces all
pass the convexity scan, `convexify_faces` succeeds and leaves the face
container with the same faces (triangles first, then the others, as the
erase/merge of the source produces). -/
theorem convexify_faces_id (m : Model) (fuel : Nat) (hfuel : 1 ≤ fuel)
    (hnt : m.is_triangulated = false) (hval : m.is_validated = true)
    (hall : ∀ f ∈ m.faces, f.vertices.length = 3 ∨
      (¬ f.vertices.length = 3 ∧ ConvexFace m f))
    (hpair : m.faces.Pairwise fun a b => faceEquiv a b = false) :
    Model.convexify_faces fuel m =
      some { m with faces := trisFirst m.faces } := by
  have hv : Model.validate m = Except.ok m := by
    unfold Model.validate
    simp [hval]
  have hfor := pairwise_equivFalse_forall m.faces hpair
  have hbigs : (m.faces.filter fun f => ! decide (f.vertices.length = 3)).foldl
      facesInsert [] = m.faces.filter fun f => ! decide (f.vertices.length = 3) := by
    have := foldl_facesInsert_append
      (m.faces.filter fun f => ! decide (f.vertices.length = 3)) []
      (by intro t _ g hg; simp at hg)
      (hpair.sublist (List.filter_sublist _))
    simpa using this
  have hmerge : facesMerge
      (m.faces.filter fun f => decide (f.vertices.length = 3))
      (m.faces.filter fun f => ! decide (f.vertices.length = 3)) =
      m.faces.filter (fun f => decide (f.vertices.length = 3)) ++
        m.faces.filter fun f => ! decide (f.vertices.length = 3) := by
    unfold facesMerge
    refine foldl_facesInsert_append _ _ ?_ (hpair.sublist (List.filter_sublist _))
    intro t ht g hg
    have htm := List.mem_filter.mp ht
    have hgm := List.mem_filter.mp hg
    refine hfor g hgm.1 t htm.1 ?_
    intro he
    rw [he] at hgm
    simp at htm hgm
    omega
  unfold Model.convexify_faces
  rw [hnt]
  simp only [Bool.false_eq_true, if_false, hv]
  rw [convexifyGo_spec m fuel hfuel m.faces [] [] hall]
  simp only [List.nil_append, hbigs, hmerge]
  rw [hnt]
  rfl

/- ---------------- Fan coverage and the triangulate pass ---------------- -/

theorem earTriples_length (n : Nat) (h4 : 4 ≤ n) : (earTriples n).length = n - 2 := by
  unfold earTriples
  rw [earFuel_len n h4 ((n - 2) / 2) 0 n (by omega) (by omega)]
  omega

theorem earTriples_cover (n : Nat) (h4 : 4 ≤ n) :
    ∀ p, p < n → ∃ t ∈ earTriples n, p = t.1 ∨ p = t.2.1 ∨ p = t.2.2 := by
  intro p hp
  by_cases h1 : p ≤ 1
  · refine ⟨T0form n 0,
      earFuel_mem_T0 n h4 n 0 0 (Nat.le_refl 0) (by omega) (by omega), ?_⟩
    rw [T0form_zero n h4]
    rcases Nat.lt_or_ge p 1 with h | h
    · left
      show p = 0
      omega
    · right
      left
      show p = 1
      omega
  · by_cases h2 : p < 2 + (n - 1) / 2
    · refine ⟨T0form n (p - 2),
        earFuel_mem_T0 n h4 n 0 (p - 2) (by omega) (by omega) (by omega), ?_⟩
      right
      right
      show p = (2 + (p - 2)) % n
      rw [Nat.mod_eq_of_lt (by omega)]
      omega
    · refine ⟨T1form n (n - 1 - p),
        earFuel_mem_T1 n h4 n 0 (n - 1 - p) (by omega) (by omega) (by omega), ?_⟩
      left
      show p = (n - 1 - (n - 1 - p)) % n
      rw [Nat.mod_eq_of_lt (by omega)]
      omega

/-- The union of the fan triangles' vertex indices is exactly the parent
ring's index set. -/
theorem fanTriangles_union (f : Face) (h4 : 4 ≤ f.vertices.length) :
    ∀ x, (∃ t ∈ fanTriangles f, x ∈ t.vertices) ↔ x ∈ f.vertices := by
  intro x
  constructor
  · rintro ⟨t, ht, hx⟩
    unfold fanTriangles at ht
    obtain ⟨tr, htr, rfl⟩ := List.mem_map.mp ht
    rw [subFace_tri_vertices] at hx
    have hb := (earTriples_spec _ h4 tr htr).1
    rcases List.mem_cons.mp hx with rfl | hx2
    · exact getD_mem_of_lt _ _ hb.1
    · rcases List.mem_cons.mp hx2 with rfl | hx3
      · exact getD_mem_of_lt _ _ hb.2.1
      · rcases List.mem_cons.mp hx3 with rfl | hx4
        · exact getD_mem_of_lt _ _ hb.2.2
        · simp at hx4
  · intro hx
    obtain ⟨p, hplt, hpeq⟩ := List.mem_iff_getElem.mp hx
    have hgd : f.vertices.getD p 0 = x := by
      rw [List.getD_eq_getElem?_getD, List.getElem?_eq_getElem hplt]
      simpa using hpeq
    obtain ⟨t, ht, hcomp⟩ := earTriples_cover f.vertices.length h4 p hplt
    refine ⟨subFace f [t.1, t.2.1, t.2.2], List.mem_map_of_mem _ ht, ?_⟩
    rw [subFace_tri_vertices]
    rcases hcomp with rfl | rfl | rfl
    · exact hgd ▸ List.mem_cons_self _ _
    · exact hgd ▸ List.mem_cons_of_mem _ (List.mem_cons_self _ _)
    · exact hgd ▸ List.mem_cons_of_mem _ (List.mem_cons_of_mem _ (List.mem_cons_self _ _))

theorem triangulateGo_skip (tris : List Face)
    (htris : ∀ g ∈ tris, ¬ 3 < g.vertices.length) :
    ∀ rest kept nf, triangulateGo (tris ++ rest) kept nf =
      triangulateGo rest (kept ++ tris) nf := by
  induction tris with
  | nil => intro rest kept nf; simp
  | cons g gs ih =>
    intro rest kept nf
    simp only [List.cons_append, triangulateGo, List.append_eq]
    rw [if_neg (htris g (List.mem_cons_self _ _)),
      ih (fun g2 hg2 => htris g2 (List.mem_cons_of_mem _ hg2)) rest (kept ++ [g]) nf,
      ← List.append_cons]

theorem triangulateGo_bigs (bigs : List Face)
    (hbigs : ∀ f ∈ bigs, 3 < f.vertices.length) :
    ∀ kept nf, triangulateGo bigs kept nf =
      (kept, bigs.foldl (fun acc f => (fanTriangles f).foldl facesInsert acc) nf) := by
  induction bigs with
  | nil => intro kept nf; rfl
  | cons f fs ih =>
    intro kept nf
    simp only [triangulateGo, List.foldl_cons]
    rw [if_pos (hbigs f (List.mem_cons_self _ _)),
      ih (fun g hg => hbigs g (List.mem_cons_of_mem _ hg)) kept _]

theorem foldl_fans_append : ∀ (bigs : List Face) (nf : List Face),
    (∀ f ∈ bigs, (fanTriangles f).Pairwise fun a b => faceEquiv a b = false) →
    (∀ f ∈ bigs, ∀ t ∈ fanTriangles f, ∀ g ∈ nf, faceEquiv g t = false) →
    List.Pairwise (fun f f2 => ∀ t ∈ fanTriangles f, ∀ t2 ∈ fanTriangles f2,
      faceEquiv t t2 = false) bigs →
    bigs.foldl (fun acc f => (fanTriangles f).foldl facesInsert acc) nf =
      nf ++ (bigs.map fanTriangles).flatten := by
  intro bigs
  induction bigs with
  | nil => intro nf _ _ _; simp
  | cons f fs ih =>
    intro nf h1 h2 h3
    rw [List.foldl_cons, foldl_facesInsert_append (fanTriangles f) nf
      (fun t ht g hg => h2 f (List.mem_cons_self _ _) t ht g hg)
      (h1 f (List.mem_cons_self _ _)),
      ih (nf ++ fanTriangles f)
        (fun f2 hf2 => h1 f2 (List.mem_cons_of_mem _ hf2)) ?_
        (List.pairwise_cons.mp h3).2]
    · simp
    · intro f2 hf2 t2 ht2 g hg
      rcases List.mem_append.mp hg with hga | hgf
      · exact h2 f2 (List.mem_cons_of_mem _ hf2) t2 ht2 g hga
      · exact (List.pairwise_cons.mp h3).1 f2 hf2 g hgf t2 ht2

/-- Cross-parent fan triangles are never comparator-equivalent when the
parents' vertex sets share at most 2 indices. -/
theorem tri_cross_equiv_false (f f2 : Face)
    (h4 : 4 ≤ f.vertices.length)
    (h42 : 4 ≤ f2.vertices.length) (hnd2 : f2.vertices.Nodup)
    (hshare : (f.vertices.toFinset ∩ f2.vertices.toFinset).card ≤ 2) :
    ∀ t ∈ fanTriangles f, ∀ t2 ∈ fanTriangles f2, faceEquiv t t2 = false := by
  intro t ht t2 ht2
  unfold fanTriangles at ht ht2
  obtain ⟨tr, htr, rfl⟩ := List.mem_map.mp ht
  obtain ⟨tr2, htr2, rfl⟩ := List.mem_map.mp ht2
  refine tri_equiv_false_outer _ f2 tr2 h42 hnd2 htr2 ?_
  refine le_trans (Finset.card_le_card (Finset.inter_subset_inter
    (subFace_tri_subset f tr (earTriples_spec _ h4 tr htr).1)
    (Finset.Subset.refl _))) hshare

theorem trisFirst_eq (fs : List Face) : trisFirst fs = trisOf fs ++ bigsOf fs := rfl

theorem bigsOf_mem (fs : List Face) (f : Face) (hf : f ∈ bigsOf fs) :
    f ∈ fs ∧ ¬ f.vertices.length = 3 := by
  have h := List.mem_filter.mp hf
  exact ⟨h.1, by simpa using h.2⟩

theorem trisOf_mem (fs : List Face) (f : Face) (hf : f ∈ trisOf fs) :
    f ∈ fs ∧ f.vertices.length = 3 := by
  have h := List.mem_filter.mp hf
  exact ⟨h.1, by simpa using h.2⟩

/-- On a validated, non-triangulated model with well-formed pairwise
non-equivalent faces, all convex: `triangulate` succeeds and the final
container keeps the triangles and replaces every larger face by its fan
triangles. -/
theorem triangulate_faces_eq (m : Model) (fuel : Nat) (hfuel : 1 ≤ fuel)
    (hval : m.is_validated = true) (hnt : m.is_triangulated = false)
    (hwf : ∀ f ∈ m.faces, 3 ≤ f.vertices.length ∧ f.vertices.Nodup ∧
      f.vertices.length < 2 ^ 63 - 1)
    (hconv : ∀ f ∈ m.faces, f.vertices.length = 3 ∨
      (¬ f.vertices.length = 3 ∧ ConvexFace m f))
    (hpair : m.faces.Pairwise fun a b => faceEquiv a b = false) :
    Model.triangulate fuel m =
      some { m with faces := fannedFaces m.faces, is_triangulated := true } := by
  have hv : Model.validate m = Except.ok m := by
    unfold Model.validate
    simp [hval]
  have hcc := convexify_faces_id m fuel hfuel hnt hval hconv hpair
  have hbig4 : ∀ f ∈ bigsOf m.faces, 4 ≤ f.vertices.length ∧ f.vertices.Nodup := by
    intro f hf
    obtain ⟨hm, h3⟩ := bigsOf_mem _ f hf
    have hw := hwf f hm
    exact ⟨by omega, hw.2.1⟩
  have hguard : (trisFirst m.faces).any
      (fun f => 2 ^ 63 - 1 ≤ f.vertices.length) = false := by
    rw [List.any_eq_false]
    intro f hf
    have hfm : f ∈ m.faces := by
      rw [trisFirst_eq] at hf
      rcases List.mem_append.mp hf with h | h
      · exact (trisOf_mem _ f h).1
      · exact (bigsOf_mem _ f h).1
    have := (hwf f hfm).2.2
    simp only [decide_eq_true_eq]
    omega
  have htris : ∀ g ∈ trisOf m.faces, ¬ 3 < g.vertices.length := by
    intro g hg
    have := (trisOf_mem _ g hg).2
    omega
  have hbigs3 : ∀ f ∈ bigsOf m.faces, 3 < f.vertices.length := by
    intro f hf
    have := (hbig4 f hf).1
    omega
  have hcross : (bigsOf m.faces).Pairwise
      (fun f f2 => ∀ t ∈ fanTriangles f, ∀ t2 ∈ fanTriangles f2,
        faceEquiv t t2 = false) := by
    have hb : (bigsOf m.faces).Pairwise (fun a b => faceEquiv a b = false) := by
      unfold bigsOf
      exact hpair.sublist (List.filter_sublist _)
    have hb2 := List.Pairwise.and_mem.mp hb
    refine hb2.imp ?_
    rintro f f2 ⟨hf, hf2, heq⟩
    exact tri_cross_equiv_false f f2 (hbig4 f hf).1
      (hbig4 f2 hf2).1 (hbig4 f2 hf2).2 ((equivFalse_iff f f2).mp heq).1
  have hfold : (bigsOf m.faces).foldl
      (fun acc f => (fanTriangles f).foldl facesInsert acc) [] =
      ((bigsOf m.faces).map fanTriangles).flatten := by
    rw [foldl_fans_append (bigsOf m.faces) []
      (fun f hf => fanTriangles_pairwise f (hbig4 f hf).1 (hbig4 f hf).2)
      (fun f _ t _ g hg => absurd hg (List.not_mem_nil g)) hcross]
    simp
  have hgo : triangulateGo (trisFirst m.faces) [] [] =
      (trisOf m.faces, ((bigsOf m.faces).map fanTriangles).flatten) := by
    rw [trisFirst_eq, triangulateGo_skip _ htris _ _ _,
      triangulateGo_bigs _ hbigs3 _ _, List.nil_append, hfold]
  have hfor := pairwise_equivFalse_forall m.faces hpair
  have hmerge : facesMerge (trisOf m.faces)
      (((bigsOf m.faces).map fanTriangles).flatten) =
      trisOf m.faces ++ ((bigsOf m.faces).map fanTriangles).flatten := by
    unfold facesMerge
    refine foldl_facesInsert_append _ _ ?_ ?_
    · intro t ht g hg
      obtain ⟨l, hl, htl⟩ := List.mem_flatten.mp ht
      obtain ⟨f, hfb, rfl⟩ := List.mem_map.mp hl
      unfold fanTriangles at htl
      obtain ⟨tr, htr, rfl⟩ := List.mem_map.mp htl
      refine tri_equiv_false_outer g f tr (hbig4 f hfb).1 (hbig4 f hfb).2 htr ?_
      have hgf : faceEquiv g f = false := by
        refine hfor g (trisOf_mem _ g hg).1 f (bigsOf_mem _ f hfb).1 ?_
        intro he
        have h3g := (trisOf_mem _ g hg).2
        have h3f := (bigsOf_mem _ f hfb).2
        rw [he] at h3g
        exact h3f h3g
      exact ((equivFalse_iff g f).mp hgf).1
    · rw [List.pairwise_flatten]
      constructor
      · intro l hl
        obtain ⟨f, hfb, rfl⟩ := List.mem_map.mp hl
        exact fanTriangles_pairwise f (hbig4 f hfb).1 (hbig4 f hfb).2
      · rw [List.pairwise_map]
        exact hcross
  unfold Model.triangulate
  rw [hnt]
  simp only [Bool.false_eq_true, if_false, hv, hcc, hguard, hgo]
  unfold fannedFaces
  rw [← hmerge]

/-- Claim C2: for every validated, not-yet-triangulated model whose
faces have duplicate-free rings of admissible size, are pairwise
non-equivalent under the container comparator, and are all either
triangles or convex: `triangulate()` succeeds, sets `is_triangulated` to
true, a second `triangulate()` call returns the same model unchanged,
and every face with ring length `n > 3` is replaced by exactly `n - 2`
distinct triangles whose union of vertex-index sets equals the original
ring's vertex-index set (the original face itself is gone). -/
theorem C2_triangulate (m : Model) (fuel : Nat) (hfuel : 1 ≤ fuel)
    (hval : m.is_validated = true) (hnt : m.is_triangulated = false)
    (hwf : ∀ f ∈ m.faces, 3 ≤ f.vertices.length ∧ f.vertices.Nodup ∧
      f.vertices.length < 2 ^ 63 - 1)
    (hconv : ∀ f ∈ m.faces, f.vertices.length = 3 ∨
      (¬ f.vertices.length = 3 ∧ ConvexFace m f))
    (hpair : m.faces.Pairwise fun a b => faceEquiv a b = false) :
    ∃ m2, Model.triangulate fuel m = some m2 ∧
      m2.is_triangulated = true ∧
      Model.triangulate fuel m2 = some m2 ∧
      ∀ f ∈ m.faces, 3 < f.vertices.length →
        (fanTriangles f).length = f.vertices.length - 2 ∧
        (fanTriangles f).Nodup ∧
        (∀ t ∈ fanTriangles f, t ∈ m2.faces ∧ t.vertices.length = 3) ∧
        f ∉ m2.faces ∧
        (∀ x, (∃ t ∈ fanTriangles f, x ∈ t.vertices) ↔ x ∈ f.vertices) := by
  refine ⟨{ m with faces := fannedFaces m.faces, is_triangulated := true },
    triangulate_faces_eq m fuel hfuel hval hnt hwf hconv hpair, rfl, ?_, ?_⟩
  · unfold Model.triangulate
    rfl
  · intro f hf h3
    have h4 : 4 ≤ f.vertices.length := by omega
    have hnd : f.vertices.Nodup := (hwf f hf).2.1
    have hfb : f ∈ bigsOf m.faces := by
      refine List.mem_filter.mpr ⟨hf, ?_⟩
      simp only [Bool.not_eq_true', decide_eq_false_iff_not]
      omega
    refine ⟨?_, ?_, ?_, ?_, fanTriangles_union f h4⟩
    · unfold fanTriangles
      rw [List.length_map, earTriples_length _ h4]
    · refine (fanTriangles_pairwise f h4 hnd).imp ?_
      intro a b hr he
      subst he
      rw [faceEquiv_rfl] at hr
      exact Bool.noConfusion hr
    · intro t ht
      constructor
      · show t ∈ fannedFaces m.faces
        unfold fannedFaces
        refine List.mem_append_right _ ?_
        exact List.mem_flatten.mpr ⟨fanTriangles f, List.mem_map_of_mem _ hfb, ht⟩
      · unfold fanTriangles at ht
        obtain ⟨tr, _, rfl⟩ := List.mem_map.mp ht
        rw [subFace_tri_vertices]
        rfl
    · intro hc
      have hc2 : f ∈ fannedFaces m.faces := hc
      unfold fannedFaces at hc2
      rcases List.mem_append.mp hc2 with h | h
      · have := (trisOf_mem _ f h).2
        omega
      · obtain ⟨l, hl, hfl⟩ := List.mem_flatten.mp h
        obtain ⟨f2, hfb2, rfl⟩ := List.mem_map.mp hl
        unfold fanTriangles at hfl
        obtain ⟨tr, _, heq⟩ := List.mem_map.mp hfl
        have hlen := congrArg (fun g : Face => g.vertices.length) heq
        simp only [subFace_tri_vertices, List.length_cons, List.length_nil] at hlen
        omega

set_option maxRecDepth 10000 in
/-- Witness for C2: the unit-square quad model, fuel 1.  Its single face
has ring `[0, 1, 2, 3]` (n = 4) and computed normal `(0, 0, 1)`. -/
theorem C2_triangulate_witness :
    ∃ m2, Model.triangulate 1 sqModel = some m2 ∧
      m2.is_triangulated = true ∧
      Model.triangulate 1 m2 = some m2 ∧
      ∀ f ∈ sqModel.faces, 3 < f.vertices.length →
        (fanTriangles f).length = f.vertices.length - 2 ∧
        (fanTriangles f).Nodup ∧
        (∀ t ∈ fanTriangles f, t ∈ m2.faces ∧ t.vertices.length = 3) ∧
        f ∉ m2.faces ∧
        (∀ x, (∃ t ∈ fanTriangles f, x ∈ t.vertices) ↔ x ∈ f.vertices) :=
  C2_triangulate sqModel 1 (by decide) (by decide) (by decide)
    (by decide)
    (by
      intro f hf
      have hfe : f = Face.mk [0, 1, 2, 3] [] [] zero3 false := by
        simpa [sqModel, Model.empty] using hf
      subst hfe
      exact Or.inr ⟨by decide, ⟨qi 0, qi 0, qi 1⟩, rfl, by decide⟩)
    (by decide)

/-- Claim C5: on a validated model, `surface_area()` and `volume()` never
mutate the caller's mesh — when the mesh is not triangulated they work on
a triangulated private copy, and after either query returns the caller's
state (vertex/texture-vertex/vertex-normal arrays, face container,
`is_triangulated` flag) is exactly as before the call. -/
theorem C5_queries_nonmutating (m : Model) (fuel : Nat)
    (hv : m.is_validated = true) :
    (∀ r ns, Model.surface_area_call fuel m = some (r, ns) → r = m) ∧
    (∀ r q, Model.volume_call fuel m = some (r, q) → r = m) := by
  have hval : Model.validate m = Except.ok m := by
    unfold Model.validate
    simp [hv]
  constructor
  · intro r ns h
    cases hq : (if m.is_triangulated then some m else Model.triangulate fuel m) with
    | none => simp [Model.surface_area_call, hval, hq] at h
    | some mq =>
      cases hm : traverseOpt (fun f => (Face.compute_normal (some mq) f).toOption) mq.faces with
      | none => simp [Model.surface_area_call, hval, hq, hm] at h
      | some ns2 =>
        simp only [Model.surface_area_call, hval, hq, hm, Option.some.injEq,
          Prod.mk.injEq] at h
        exact h.1.symm
  · intro r q h
    cases hq : (if m.is_triangulated then some m else Model.triangulate fuel m) with
    | none => simp [Model.volume_call, hval, hq] at h
    | some mq =>
      cases hm : traverseOpt (volumeTerm mq.vertices) mq.faces with
      | none => simp [Model.volume_call, hval, hq, hm] at h
      | some qs =>
        simp only [Model.volume_call, hval, hq, hm, Option.some.injEq,
          Prod.mk.injEq] at h
        exact h.1.symm

/-- Witness for C5_queries_nonmutating on the validated single-triangle
model: both queries succeed (returning the unnormalized triangle normal
and the zero volume) and the post-call state equals the input. -/
theorem C5_queries_nonmutating_witness :
    Model.surface_area_call 1 triModel = some (triModel, [⟨qi 0, qi 0, qi 1⟩]) ∧
      (Model.volume_call 1 triModel).map (fun r => (r.1, r.2.num)) = some (triModel, 0) ∧
      ((∀ r ns, Model.surface_area_call 1 triModel = some (r, ns) → r = triModel) ∧
       (∀ r q, Model.volume_call 1 triModel = some (r, q) → r = triModel)) :=
  ⟨by decide, by decide, C5_queries_nonmutating triModel 1 rfl⟩

/-- Claim C6: on the 6-vertex single-concavity model, `convexify_faces()`
replaces the hexagonal face with exactly the two quadrilaterals over
vertex indices `{0, 1, 4, 5}` and `{1, 2, 3, 4}`. -/
theorem C6_hexagon_convexify :
    (Model.convexify_faces 8 hexModel).map
        (fun m2 => m2.faces.map fun f => f.vertices) =
      some [[0, 1, 4, 5], [1, 2, 3, 4]] := by
  set_option maxRecDepth 10000 in decide

/-- Claim C8 — code-bug exhibit.  The claim (and the Bitset documentation:
"Returns true if all of the stored bits are set to true") requires
`all()` to hold exactly when every bit in `[0, n)` is set, for every
`n ≥ 1` including multiples of the word size.  For `n = 64` the
constructor computes `lastw_mask_ = (1 << (64 % 64)) - 1 = 0` (ISO-defined
arithmetic, no shift overflow involved), so `all()` compares the single
word against `0`: a freshly constructed `Bitset(64)` with no bit set
reports `all() = true` while bit 0 reads false. -/
theorem C8_all_tail_mask_bug :
    (Bitset.make 64).all = true ∧ (Bitset.make 64).getBit 0 = some false := by
  decide

/-- Claim C10 — code-bug exhibit.  `set`/`flip`/`operator[]` build
`BIT_MASK` as `1 << (ind % WordS)` with a 32-bit int `1`: for in-word
positions ≥ 32 the shift is out of the int's width (reduced mod 32 in the
generated code), so distinct indices alias the same stored bit.  On a
150-bit set, `set(100, true)` (in-word position 36) flips the stored bit
that index 68 (in-word position 4 of the same word) reads: afterwards
`operator[](68)` returns true although it was false before the call and
`68 ≠ 100`. -/
theorem C10_set_aliasing_bug :
    (Bitset.make 150).getBit 68 = some false ∧
      ((Bitset.make 150).set 100 true).bind (fun b => b.getBit 100) = some true ∧
      ((Bitset.make 150).set 100 true).bind (fun b => b.getBit 68) = some true := by
  decide

end ThreeDConv
